import Mathlib

/-!
Verification development for the WinMerge registry options manager
(`Src/Common/RegOptionsMgr.cpp`).  Strings are modelled as lists of
code units (`Str`), the registry as a flat association store keyed by
(key path, value name), and the asynchronous write machinery as an
explicit state machine.
-/

namespace RegOpts

/-- A string, modelled as its list of code units (tchar units). -/
abbrev Str := List Nat

/-- Return codes of `COption` (`OPT_OK`, `OPT_ERR`, `OPT_WRONG_TYPE`,
`OPT_UNKNOWN_TYPE`, `OPT_NOTFOUND`). -/
inductive OptRet : Type where
  | ok : OptRet
  | err : OptRet
  | wrongType : OptRet
  | unknownType : OptRet
  | notFound : OptRet
deriving DecidableEq

/-- `varprop::VariantValue`: a tagged union over Null, Int, Bool, String. -/
inductive VariantValue : Type where
  | null : VariantValue
  | intV (i : Int) : VariantValue
  | boolV (b : Bool) : VariantValue
  | strV (s : Str) : VariantValue
deriving DecidableEq

/-- The `VT_*` tag of a variant (`VT_NULL = 0`, `VT_BOOL = 1`,
`VT_INT = 2`, `VT_STRING = 5` as in varprop; only distinctness matters). -/
def VariantValue.tag : VariantValue → Nat
  | .null => 0
  | .boolV _ => 1
  | .intV _ => 2
  | .strV _ => 5

/-- Raw registry data for one value: Windows type tag plus raw data units. -/
structure RegData : Type where
  dwType : Nat
  data : List Nat
deriving DecidableEq

/-- Windows registry string type tag. -/
def REG_SZ : Nat := 1

/-- Windows registry 32-bit word type tag. -/
def REG_DWORD : Nat := 4

/-! ### Association list helpers -/

/-- Value lookup in an association list (first match wins, like
`std::map::find` on a container with unique keys). -/
def findA {κ α : Type} [DecidableEq κ] : List (κ × α) → κ → Option α
  | [], _ => none
  | (k, v) :: r, k' => if k = k' then some v else findA r k'

/-- Remove every binding of a key from an association list. -/
def eraseKey {κ α : Type} [DecidableEq κ] : List (κ × α) → κ → List (κ × α)
  | [], _ => []
  | e :: r, k => if e.1 = k then eraseKey r k else e :: eraseKey r k

/-- Insert-or-replace a binding, keeping keys unique. -/
def updateA {κ α : Type} [DecidableEq κ] (l : List (κ × α)) (k : κ) (v : α) : List (κ × α) :=
  (k, v) :: eraseKey l k

/-! ### Name splitting

`COptionsMgr::SplitName` lives in `OptionsMgr.cpp`, which is not part of
the sources under verification. -/

/-- Modelled from the spec: `COptionsMgr::SplitName` splits an option name
into (KeyPath, ValueName) by taking the segment after the last slash `/`
as the value name and the rest as the key path; a name with no slash is
all value name. -/
def splitName (n : Str) : Str × Str :=
  let rev := n.reverse
  let vn := rev.takeWhile (fun c => c != 47)
  if vn.length = rev.length then ([], n)
  else ((rev.drop (vn.length + 1)).reverse, vn.reverse)

/-! ### Typed value codec (`SaveValueToReg` / `LoadValueFromBuf`) -/

/-- varprop type tag `VT_NULL`. -/
def VT_NULL : Nat := 0

/-- varprop type tag `VT_BOOL`. -/
def VT_BOOL : Nat := 1

/-- varprop type tag `VT_INT`. -/
def VT_INT : Nat := 2

/-- varprop type tag `VT_STRING`. -/
def VT_STRING : Nat := 5

/-- Cast of a C `int` to a `DWORD` (two's-complement, modulo `2^32`). -/
def toUInt32 (i : Int) : Nat := (i % (2 ^ 32 : Int)).toNat

/-- Cast of a `DWORD` back to a C `int` (two's-complement). -/
def toInt32 (w : Nat) : Int := if w < 2 ^ 31 then (w : Int) else (w : Int) - 2 ^ 32

/-- Little-endian 4-byte image of a 32-bit word. -/
def encodeDword (w : Nat) : List Nat :=
  [w % 256, w / 256 % 256, w / 65536 % 256, w / 16777216 % 256]

/-- `CopyMemory(&dwordValue, &data[0], sizeof(DWORD))`: assemble the
little-endian word from the first four stored bytes. -/
def bytesToDword (l : List Nat) : Nat :=
  l.getD 0 0 + 256 * l.getD 1 0 + 65536 * l.getD 2 0 + 16777216 * l.getD 3 0

/-- Read a stored C string: the units up to the first 0 terminator. -/
def decodeSz (l : List Nat) : Str := l.takeWhile (fun c => c != 0)

/-- The raw units `SaveValueToReg` writes for a string value: the string
plus a trailing terminator when the length is positive (the
`(length + 1) * sizeof(tchar_t)` branch), and a lone terminator unit
otherwise (the `tchar_t str[1] = {0}` branch). -/
def saveStringData (u : Str) : List Nat :=
  if 0 < u.length then u ++ [0] else [0]

/-- `CRegOptionsMgr::IOHandler::SaveValueToReg`: the (type tag, data)
pair written to the store for a variant value, together with the return
code.  A Null variant writes nothing and yields `OPT_UNKNOWN_TYPE`. -/
def saveValueToReg : VariantValue → Option RegData × OptRet
  | .strV u => (some ⟨REG_SZ, saveStringData u⟩, .ok)
  | .intV i => (some ⟨REG_DWORD, encodeDword (toUInt32 i)⟩, .ok)
  | .boolV b => (some ⟨REG_DWORD, encodeDword (if b then 1 else 0)⟩, .ok)
  | .null => (none, .unknownType)

/-! ### The in-memory options map (external collaborator) -/

/-- The authoritative in-memory option table `m_optionsMap`. -/
abbrev OptionsMap := List (Str × VariantValue)

/-- Modelled from the spec: `COptionsMgr::Get` (in `OptionsMgr.cpp`, not
under the sources here) returns the value of a known option and the Null
sentinel for an unknown name. -/
def optGet (t : OptionsMap) (nm : Str) : VariantValue :=
  (findA t nm).getD .null

/-- Modelled from the spec: `COptionsMgr::AddOption` (in
`OptionsMgr.cpp`, not under the sources here) adds an option with the
given value to the table, `Add(name, value) -> Ok|Err`. -/
def addOption (t : OptionsMap) (nm : Str) (v : VariantValue) : OptRet × OptionsMap :=
  (.ok, updateA t nm v)

/-- Modelled from the spec: `COptionsMgr::Set` (in `OptionsMgr.cpp`, not
under the sources here), `Set(name, value) -> Ok|WrongType|NotFound`:
updates a known option when the type matches its current typed value. -/
def optSet (t : OptionsMap) (nm : Str) (v : VariantValue) : OptRet × OptionsMap :=
  match findA t nm with
  | none => (.notFound, t)
  | some old => if old.tag = v.tag then (.ok, updateA t nm v) else (.wrongType, t)

/-- Modelled from the spec: `COptionsMgr::RemoveOption` (in
`OptionsMgr.cpp`, not under the sources here) removes the single named
option from the table. -/
def baseRemoveOption (t : OptionsMap) (nm : Str) : OptRet × OptionsMap :=
  match findA t nm with
  | none => (.notFound, t)
  | some _ => (.ok, eraseKey t nm)

/-- `CRegOptionsMgr::LoadValueFromBuf`: decode a stored (type, data)
pair, branching on the caller's expected type, and `Set` the decoded
value in the options table on success. -/
def loadValueFromBuf (t : OptionsMap) (nm : Str) (ty : Nat) (data : List Nat)
    (expected : VariantValue) : OptRet × OptionsMap :=
  if ty = REG_SZ ∧ expected.tag = VT_STRING then
    optSet t nm (.strV (decodeSz data))
  else if ty = REG_DWORD then
    if expected.tag = VT_INT then
      optSet t nm (.intV (toInt32 (bytesToDword data)))
    else if expected.tag = VT_BOOL then
      optSet t nm (.boolV (decide (0 < bytesToDword data)))
    else (.wrongType, t)
  else (.wrongType, t)

/-! ### The registry store, modelled flat by (key path, value name) -/

/-- Location of one registry value. -/
abbrev StoreKey := Str × Str

/-- The persistent hierarchical store, flattened to an association list
over (key path, value name). -/
abbrev Store := List (StoreKey × RegData)

/-- `RegSetValueEx` through an open key. -/
def storeWrite (st : Store) (p vn : Str) (d : RegData) : Store :=
  updateA st (p, vn) d

/-- `RegQueryValueEx`: `none` models `ERROR_FILE_NOT_FOUND`. -/
def storeLookup (st : Store) (k : StoreKey) : Option RegData :=
  findA st k

/-- `RegDeleteValue` of a single value. -/
def storeDeleteValue (st : Store) (p vn : Str) : Store :=
  eraseKey st (p, vn)

/-- `RegDeleteTree`/`SHDeleteKey` on the key at `p`: removes every value
of that key and of all of its descendants. -/
def storeDeleteTree (st : Store) (p : Str) : Store :=
  st.filter (fun e => !(e.1.1 == p || (p ++ [92]).isPrefixOf e.1.1))

/-! ### Codec round-trip lemmas -/

/-- A stored string datum is well formed when it is exactly a terminated
0-free string; equivalently, re-terminating its decode gives it back. -/
def wfSzData (d : List Nat) : Bool := decodeSz d ++ [0] == d

/-- A stored word datum is well formed when it is exactly the 4-byte
little-endian image of its assembled word. -/
def wfDwordData (d : List Nat) : Bool := encodeDword (bytesToDword d) == d

/-! ### The asynchronous write queue (`IOHandler`) -/

/-- One queued `AsyncWriterThreadParams` message. -/
abbrev PendingWrite := Str × VariantValue

/-- The observable state of the `IOHandler` write machinery:
`m_dwQueueCount`, the messages posted to the worker thread and not yet
processed, and the registry store. -/
structure IOState : Type where
  queueCount : Nat
  queue : List PendingWrite
  store : Store
deriving DecidableEq

/-- One worker write: split the name, open/create the key and
`SaveValueToReg` the value; a Null value writes nothing. -/
def applyWrite (st : Store) (nm : Str) (v : VariantValue) : Store :=
  match (saveValueToReg v).1 with
  | some d => storeWrite st (splitName nm).1 (splitName nm).2 d
  | none => st

/-- `IOHandler::WriteAsync`: increment `m_dwQueueCount` first, then
attempt the post; on a failed post delete the parameter block and
decrement again, reporting nothing to the caller (the return type has no
error component). -/
def writeAsync (postOk : Bool) (nm : Str) (v : VariantValue) (s : IOState) : IOState :=
  let s1 : IOState := ⟨s.queueCount + 1, s.queue, s.store⟩
  if postOk then ⟨s1.queueCount, s1.queue ++ [(nm, v)], s1.store⟩
  else ⟨s1.queueCount - 1, s1.queue, s1.store⟩

/-- One `WM_USER` iteration of `AsyncWriterThreadProc`: apply the oldest
posted message to the store and decrement `m_dwQueueCount`. -/
def workerStep (s : IOState) : IOState :=
  match s.queue with
  | [] => s
  | (nm, v) :: rest => ⟨s.queueCount - 1, rest, applyWrite s.store nm v⟩

/-- Worker processing of a whole backlog, on explicit components. -/
def drainList : Nat → List PendingWrite → Store → IOState
  | c, [], st => ⟨c, [], st⟩
  | c, (nm, v) :: rest, st => drainList (c - 1) rest (applyWrite st nm v)

/-- The state after the worker has processed every posted message: the
point at which a busy-wait on `m_dwQueueCount` returns, given that the
count tracks the number of posted-but-unprocessed messages
(`WaitForQueueFlush`). -/
def drainQueue (s : IOState) : IOState := drainList s.queueCount s.queue s.store

/-- `IOHandler::Read` of one option name; `none` models
`ERROR_FILE_NOT_FOUND` (the undersized-buffer retry does not change the
delivered data). -/
def regRead (s : IOState) (nm : Str) : Option RegData :=
  storeLookup s.store (splitName nm)

/-- `IOHandler::Remove`: busy-wait until the pending count reaches zero
(the worker drains the queue), then delete the value, or the whole
subtree when the split value name is empty. -/
def regRemove (nm : Str) (s : IOState) : IOState :=
  if (splitName nm).2 = [] then
    ⟨(drainQueue s).queueCount, (drainQueue s).queue,
      storeDeleteTree (drainQueue s).store (splitName nm).1⟩
  else
    ⟨(drainQueue s).queueCount, (drainQueue s).queue,
      storeDeleteValue (drainQueue s).store (splitName nm).1 (splitName nm).2⟩

/-- Interleaved events on the queue: caller posts (successful or not)
and worker iterations. -/
inductive QOp : Type where
  | enqueue (postOk : Bool) (nm : Str) (v : VariantValue) : QOp
  | work : QOp
deriving DecidableEq

/-- Effect of one queue event. -/
def qStep (s : IOState) : QOp → IOState
  | .enqueue ok nm v => writeAsync ok nm v s
  | .work => workerStep s

/-- Run a sequence of queue events. -/
def runQ (s : IOState) (ops : List QOp) : IOState := ops.foldl qStep s

/-- The `IOHandler` state right after construction. -/
def emptyQueueState (st : Store) : IOState := ⟨0, [], st⟩

/-! ### The key-handle cache (`m_hKeys`) -/

/-- The handle-cache component of `IOHandler`: the `m_bCloseHandle`
flag, the cached handles `m_hKeys`, the set of key paths present in the
registry, a fresh-handle counter, and a counter of underlying
`RegCreateKeyEx`/`RegOpenKeyEx` invocations. -/
structure KeyCache : Type where
  closeHandleFlag : Bool
  hKeys : List (Str × Nat)
  regKeys : List Str
  nextH : Nat
  openCalls : Nat
deriving DecidableEq

/-- Cache state at `IOHandler` construction: `m_bCloseHandle` is
initialized to false (and never assigned afterwards in the source); no
handle is cached.  `rk` is the set of pre-existing registry key paths. -/
def initCache (rk : List Str) : KeyCache := ⟨false, [], rk, 1, 0⟩

/-- `IOHandler::OpenKey`: return the cached handle when the path is
cached; otherwise invoke `RegCreateKeyEx` (when `bAlwaysCreate`) or
`RegOpenKeyEx` and cache the fresh handle on success. -/
def cacheOpenKey (c : KeyCache) (p : Str) (bAlwaysCreate : Bool) : Option Nat × KeyCache :=
  match findA c.hKeys p with
  | some h => (some h, c)
  | none =>
    if bAlwaysCreate then
      (some c.nextH,
        ⟨c.closeHandleFlag, updateA c.hKeys p c.nextH,
          if c.regKeys.contains p then c.regKeys else p :: c.regKeys,
          c.nextH + 1, c.openCalls + 1⟩)
    else if c.regKeys.contains p then
      (some c.nextH,
        ⟨c.closeHandleFlag, updateA c.hKeys p c.nextH, c.regKeys, c.nextH + 1,
          c.openCalls + 1⟩)
    else
      (none, ⟨c.closeHandleFlag, c.hKeys, c.regKeys, c.nextH, c.openCalls + 1⟩)

/-- `IOHandler::CloseKey`, called after every ordinary read and write:
it erases the cache entry only when `m_bCloseHandle` is set. -/
def cacheCloseKey (c : KeyCache) (p : Str) : KeyCache :=
  if c.closeHandleFlag then
    ⟨c.closeHandleFlag, eraseKey c.hKeys p, c.regKeys, c.nextH, c.openCalls⟩
  else c

/-- `IOHandler::CloseKeys`: the explicit close request, closing and
evicting every cached handle. -/
def cacheCloseAll (c : KeyCache) : KeyCache :=
  ⟨c.closeHandleFlag, [], c.regKeys, c.nextH, c.openCalls⟩

/-- Events on the handle cache. -/
inductive CacheOp : Type where
  | openK (p : Str) (bAlwaysCreate : Bool) : CacheOp
  | closeK (p : Str) : CacheOp
  | closeAll : CacheOp
deriving DecidableEq

/-- Effect of one cache event. -/
def cacheStep (c : KeyCache) : CacheOp → KeyCache
  | .openK p b => (cacheOpenKey c p b).2
  | .closeK p => cacheCloseKey c p
  | .closeAll => cacheCloseAll c

/-- Run a sequence of cache events. -/
def runCache (c : KeyCache) (ops : List CacheOp) : KeyCache := ops.foldl cacheStep c

/-! ### Registry root normalization (`SetRegRootKey`) -/

/-- `std::basic_string::find`: index of the first occurrence of the
pattern, `none` modelling `npos`. -/
def strFind (hay needle : Str) : Option Nat :=
  if needle.isPrefixOf hay then some 0
  else
    match hay with
    | [] => none
    | _ :: t => (strFind t needle).map (fun i => i + 1)

/-- Code units of the fixed namespace `Software`. -/
def softwareStr : Str := [83, 111, 102, 116, 119, 97, 114, 101]

/-- Code units of the prepended component `Software\`. -/
def softwareBS : Str := softwareStr ++ [92]

/-- `IOHandler::SetRegRootKey`: keep the key as given when `Software`
occurs at position 0, otherwise prepend `Software\` once; the result is
stored as `m_registryRoot`. -/
def setRegRootKey (key : Str) : Str :=
  match strFind key softwareStr with
  | some 0 => key
  | _ => softwareBS ++ key

/-- The state built by the `CRegOptionsMgr` constructor: serializing is
set and the `IOHandler` normalizes and stores the registry root once, at
construction time. -/
structure RegMgrInit : Type where
  serializing : Bool
  registryRoot : Str
deriving DecidableEq

/-- `CRegOptionsMgr::CRegOptionsMgr(path)`. -/
def mkRegOptionsMgr (path : Str) : RegMgrInit := ⟨true, setRegRootKey path⟩

/-! ### The registry tree and the import/export reconciler -/

mutual

/-- A registry key: its values and its child keys. -/
inductive RegTree : Type where
  | node (values : List (Str × RegData)) (subkeys : Subkeys) : RegTree

/-- The ordered child keys of a registry key. -/
inductive Subkeys : Type where
  | nil : Subkeys
  | cons (nm : Str) (t : RegTree) (rest : Subkeys) : Subkeys

end

/-- Full option name of a value: `strPath + "/" + szValueName`. -/
def joinName (p vn : Str) : Str := p ++ 47 :: vn

/-- Child key path: `strPath.empty() ? szSubKey : strPath + "\\" + szSubKey`. -/
def joinPath (p sub : Str) : Str := if p = [] then sub else p ++ 92 :: sub

/-- Code units of the type tag `int`. -/
def intTag : Str := [105, 110, 116]

/-- Code units of the type tag `bool`. -/
def boolTag : Str := [98, 111, 111, 108]

/-- Code units of the type tag `string`. -/
def stringTag : Str := [115, 116, 114, 105, 110, 103]

/-- Decimal digits of a natural number, most significant first; the
fuel argument only serves the recursion and any fuel above the number is
enough. -/
def natDigitsAux : Nat → Nat → Str
  | 0, _ => []
  | fuel + 1, n => if n < 10 then [48 + n] else natDigitsAux fuel (n / 10) ++ [48 + n % 10]

/-- Decimal digits of a natural number (`strutils::to_str`). -/
def natDigits (n : Nat) : Str := natDigitsAux (n + 1) n

/-- `strutils::to_str` of a signed integer: optional minus sign followed
by decimal digits. -/
def intToText (i : Int) : Str :=
  if i < 0 then 45 :: natDigits (-i).toNat else natDigits i.toNat

/-- Modelled from the spec: the digit value of one character under a
parse base, as in `strtoll`. -/
def digitVal (base c : Nat) : Option Nat :=
  if 48 ≤ c ∧ c ≤ 57 ∧ c - 48 < base then some (c - 48)
  else if base = 16 ∧ 97 ≤ c ∧ c ≤ 102 then some (c - 87)
  else if base = 16 ∧ 65 ≤ c ∧ c ≤ 70 then some (c - 55)
  else none

/-- Accumulate leading digits, stopping at the first non-digit. -/
def parseDigits (base : Nat) : Str → Nat → Nat
  | [], acc => acc
  | c :: r, acc =>
    match digitVal base c with
    | some d => parseDigits base r (acc * base + d)
    | none => acc

/-- Digits with the optional `0x` prefix consumed in base 16. -/
def parseDigitsPrefixed : Nat → Str → Nat
  | 16, 48 :: 120 :: r => parseDigits 16 r 0
  | 16, 48 :: 88 :: r => parseDigits 16 r 0
  | b, r => parseDigits b r 0

/-- Modelled from the spec: `tc::tcstoll` (not under the sources here),
the C `strtoll`: an optional sign, then digits of the given base with an
optional `0x` prefix in base 16. -/
def tcstoll (s : Str) (base : Nat) : Int :=
  if s.headI = 45 then -(Int.ofNat (parseDigitsPrefixed base s.tail))
  else if s.headI = 43 then Int.ofNat (parseDigitsPrefixed base s.tail)
  else Int.ofNat (parseDigitsPrefixed base s)

/-- Modelled from the spec: `tc::ttoi` (not under the sources here), the
C `atoi`. -/
def ttoi (s : Str) : Int := tcstoll s 10

/-- One escaped character. -/
def escChar (c : Nat) : Str :=
  if c = 92 then [92, 92]
  else if c = 10 then [92, 110]
  else if c = 13 then [92, 114]
  else if c = 59 then [92, 115]
  else if c = 61 then [92, 101]
  else [c]

/-- Modelled from the spec: `EscapeValue` (not under the sources here)
escapes the flat file's separator and record characters with backslash
sequences so they cannot appear unescaped in exported values. -/
def escapeValue (u : Str) : Str := (u.map escChar).flatten

/-- The character named by an escape code. -/
def unescChar (d : Nat) : Nat :=
  if d = 92 then 92 else if d = 110 then 10 else if d = 114 then 13
  else if d = 115 then 59 else if d = 101 then 61 else d

/-- Modelled from the spec: the inverse unescape applied on import. -/
def unescValue : Str → Str
  | [] => []
  | [c] => [c]
  | c :: d :: r =>
    if c = 92 then unescChar d :: unescValue r
    else c :: unescValue (d :: r)

/-- ASCII lower-casing of one character. -/
def lowerA (c : Nat) : Nat := if 65 ≤ c ∧ c ≤ 90 then c + 32 else c

/-- Modelled from the spec: `tc::tcsicmp(a, b) == 0` (not under the
sources here), ASCII case-insensitive string equality. -/
def ieqStr (a b : Str) : Bool := a.map lowerA == b.map lowerA

/-- One entry pair written to the flat file by export: the full option
name, the text written to the values section and the tag written to the
type-tag section. -/
structure ExpEntry : Type where
  name : Str
  text : Str
  tag : Str
deriving DecidableEq

/-- One value entry of `ExportAllUnloadedValues`: a value whose full
option name is absent from the options map is written as signed decimal
text tagged `int` for a `REG_DWORD` datum, and as escaped text tagged
`string` for a `REG_SZ` datum; every other registry type is skipped, and
a name present in the options map produces nothing. -/
def exportValue (m : OptionsMap) (p vn : Str) (d : RegData) : Option ExpEntry :=
  if findA m (joinName p vn) = none then
    if d.dwType = REG_DWORD then
      some ⟨joinName p vn, intToText (toInt32 (bytesToDword d.data)), intTag⟩
    else if d.dwType = REG_SZ then
      some ⟨joinName p vn, escapeValue (decodeSz d.data), stringTag⟩
    else none
  else none

mutual

/-- `ExportAllUnloadedValues` over a key: its value entries in
enumeration order, then the entries of its child keys recursively. -/
def exportWalk (m : OptionsMap) : RegTree → Str → List ExpEntry
  | .node vs sks, p =>
    vs.filterMap (fun vd => exportValue m p vd.1 vd.2) ++ exportWalkSubs m sks p

/-- The export walk over a list of child keys. -/
def exportWalkSubs (m : OptionsMap) : Subkeys → Str → List ExpEntry
  | .nil, _ => []
  | .cons nm t rest, p => exportWalk m t (joinPath p nm) ++ exportWalkSubs m rest p

end

mutual

/-- All values of the tree, with the key path each lives under. -/
def allValues : RegTree → Str → List (Str × Str × RegData)
  | .node vs sks, p => vs.map (fun vd => (p, vd.1, vd.2)) ++ allValuesSubs sks p

/-- All values under a list of child keys. -/
def allValuesSubs : Subkeys → Str → List (Str × Str × RegData)
  | .nil, _ => []
  | .cons nm t rest, p => allValues t (joinPath p nm) ++ allValuesSubs rest p

end

/-- The values section written by export. -/
def iniValsOf (entries : List ExpEntry) : List (Str × Str) :=
  entries.map (fun e => (e.name, e.text))

/-- The twin type-tag section written by export. -/
def iniTypesOf (entries : List ExpEntry) : List (Str × Str) :=
  entries.map (fun e => (e.name, e.tag))

/-- Modelled from the spec: `ReadIniFile` (not under the sources here)
reads one section of the flat file into a name-to-text mapping, applying
the inverse unescape to the stored texts. -/
def readIniSection (sec : List (Str × Str)) : List (Str × Str) :=
  sec.map (fun kv => (kv.1, unescValue kv.2))

/-- The value decoded by `ImportAllUnloadedValues` for one ini entry:
dispatch on the type tag, case-insensitively; an unrecognized tag leaves
the Null variant. -/
def parseIniValue (strType strValue : Str) : VariantValue :=
  if ieqStr strType boolTag then
    VariantValue.boolV (decide (ttoi strValue ≠ 0))
  else if ieqStr strType intTag then
    VariantValue.intV (toInt32 (toUInt32 (tcstoll strValue
      (if 2 ≤ strValue.length ∧ strValue.getD 1 0 = 120 then 16 else 10))))
  else if ieqStr strType stringTag then
    VariantValue.strV strValue
  else VariantValue.null

/-- One iteration of the `ImportAllUnloadedValues` loop: an entry whose
name is already in the options map, or that has no twin type tag, is
skipped; otherwise the key path is opened (created) and the decoded
value written synchronously (a Null decode makes `SaveValueToReg` write
nothing). -/
def importStep (types : List (Str × Str)) (m : OptionsMap) (st : Store) (kv : Str × Str) :
    Store :=
  if findA m kv.1 = none then
    match findA types kv.1 with
    | some ty =>
      match (saveValueToReg (parseIniValue ty kv.2)).1 with
      | some d => storeWrite st (splitName kv.1).1 (splitName kv.1).2 d
      | none => st
    | none => st
  else st

/-- `IOHandler::ImportAllUnloadedValues` over the two read ini sections;
the source always reports `OPT_OK`. -/
def importAllUnloadedValues (vals types : List (Str × Str)) (m : OptionsMap) (st : Store) :
    Store × OptRet :=
  (vals.foldl (importStep types m) st, OptRet.ok)

/-- Well-formedness of one store value for the flat-file round trip: the
value name holds no `/`, a word datum is exactly its 4 little-endian
bytes and a string datum is exactly a terminated 0-free string. -/
def valueWF (x : Str × Str × RegData) : Bool :=
  !(x.2.1.contains 47) &&
    (if x.2.2.dwType = REG_DWORD then wfDwordData x.2.2.data
     else if x.2.2.dwType = REG_SZ then wfSzData x.2.2.data
     else true)

/-- Well-formedness of every value of the tree. -/
def treeWF (t : RegTree) : Bool := (allValues t []).all valueWF

/-! ### `CRegOptionsMgr` operations over the combined state -/

/-- The observable state of a `CRegOptionsMgr`: the in-memory options
table, the `IOHandler` state and the `m_serializing` flag. -/
structure MgrState : Type where
  table : OptionsMap
  io : IOState
  serializing : Bool
deriving DecidableEq

/-- `CRegOptionsMgr::InitOption`: reject a Null default; when not
serializing just add the option; otherwise add the default to the table,
read the stored value synchronously and, when one exists, decode it into
the table through `LoadValueFromBuf` with the default as the expected
type. -/
def initOption (s : MgrState) (nm : Str) (dv : VariantValue) : OptRet × MgrState :=
  if dv.tag = VT_NULL then (OptRet.err, s)
  else if s.serializing = false then
    ((addOption s.table nm dv).1, ⟨(addOption s.table nm dv).2, s.io, s.serializing⟩)
  else
    if (addOption s.table nm dv).1 = OptRet.ok then
      match regRead s.io nm with
      | some rd =>
        ((loadValueFromBuf (addOption s.table nm dv).2 nm rd.dwType rd.data dv).1,
          ⟨(loadValueFromBuf (addOption s.table nm dv).2 nm rd.dwType rd.data dv).2,
            s.io, s.serializing⟩)
      | none =>
        ((addOption s.table nm dv).1, ⟨(addOption s.table nm dv).2, s.io, s.serializing⟩)
    else ((addOption s.table nm dv).1, ⟨(addOption s.table nm dv).2, s.io, s.serializing⟩)

/-- `CRegOptionsMgr::FlushOptions`: wait for the queue flush (the worker
drains the backlog); the option table is untouched. -/
def flushOptions (s : MgrState) : MgrState := ⟨s.table, drainQueue s.io, s.serializing⟩

/-- The erase condition of the `CRegOptionsMgr::RemoveOption` loop:
`key.find(strPath) == 0 && key.length() > strPath.length() &&
key[strPath.length()] == '/'`. -/
def eraseCond (p k : Str) : Bool :=
  (strFind k p == some 0) && decide (p.length < k.length) && (k.getD p.length 0 == 47)

/-- `CRegOptionsMgr::RemoveOption`: for a plain option name remove the
single option from the table; for a key-path name (empty split value
name) erase every table entry satisfying the prefix condition and report
Ok; either way ask `IOHandler::Remove` to delete in the store. -/
def removeOption (s : MgrState) (nm : Str) : OptRet × MgrState :=
  if (splitName nm).2 ≠ [] then
    ((baseRemoveOption s.table nm).1,
      ⟨(baseRemoveOption s.table nm).2, regRemove nm s.io, s.serializing⟩)
  else
    (OptRet.ok,
      ⟨s.table.filter (fun e => !(eraseCond (splitName nm).1 e.1)),
        regRemove nm s.io, s.serializing⟩)

/-! ## Lemmas, followed by the claim theorems and their witnesses -/

theorem findA_eraseKey_self {κ α : Type} [DecidableEq κ] (l : List (κ × α)) (k : κ) :
    findA (eraseKey l k) k = none := by
  induction l with
  | nil => rfl
  | cons e r ih =>
    by_cases h : e.1 = k
    · simpa [eraseKey, findA, h] using ih
    · simpa [eraseKey, findA, h] using ih

theorem findA_eraseKey_ne {κ α : Type} [DecidableEq κ] (l : List (κ × α)) (k k' : κ)
    (h : k' ≠ k) : findA (eraseKey l k) k' = findA l k' := by
  induction l with
  | nil => rfl
  | cons e r ih =>
    by_cases he : e.1 = k
    · simp [eraseKey, he, findA, ih, Ne.symm h]
    · by_cases he' : e.1 = k'
      · simp [eraseKey, he, findA, he', h]
      · simp [eraseKey, he, findA, he', ih]

theorem findA_updateA_self {κ α : Type} [DecidableEq κ] (l : List (κ × α)) (k : κ) (v : α) :
    findA (updateA l k v) k = some v := by
  simp [updateA, findA]

theorem findA_updateA_ne {κ α : Type} [DecidableEq κ] (l : List (κ × α)) (k k' : κ) (v : α)
    (h : k' ≠ k) : findA (updateA l k v) k' = findA l k' := by
  have hrest := findA_eraseKey_ne l k k' h
  have hne : k ≠ k' := fun hh => h hh.symm
  simp [updateA, findA, hne, hrest]

theorem findA_filter_of_pred_false {κ α : Type} [DecidableEq κ] (l : List (κ × α))
    (p : κ × α → Bool) (k : κ) (h : ∀ v : α, p (k, v) = false) :
    findA (l.filter p) k = none := by
  induction l with
  | nil => rfl
  | cons e r ih =>
    by_cases hp : p e
    · by_cases he : e.1 = k
      · exfalso
        have : p (k, e.2) = false := h e.2
        rw [← he] at this
        simp [hp] at this
      · simp [List.filter, hp, findA, he, ih]
    · simp [List.filter, hp, ih]

theorem findA_filter_of_pred_true {κ α : Type} [DecidableEq κ] (l : List (κ × α))
    (p : κ × α → Bool) (k : κ) (h : ∀ v : α, p (k, v) = true) :
    findA (l.filter p) k = findA l k := by
  induction l with
  | nil => rfl
  | cons e r ih =>
    by_cases he : e.1 = k
    · have hp : p e = true := by
        have := h e.2
        rw [← he] at this
        simpa using this
      simp [List.filter, hp, findA, he]
    · by_cases hp : p e
      · simp [List.filter, hp, findA, he, ih]
      · simp [List.filter, hp, findA, he, ih]

theorem takeWhile_append_of_all {p : Nat → Bool} (l r : Str) (hl : ∀ c ∈ l, p c = true)
    (hr : r ≠ [] → p (r.headI) = false) :
    (l ++ r).takeWhile p = l := by
  induction l with
  | nil =>
    cases r with
    | nil => rfl
    | cons c r' =>
      have := hr (by simp)
      simp only [List.headI] at this
      simp [List.takeWhile, this]
  | cons c l' ih =>
    have hc : p c = true := hl c (by simp)
    have : ∀ c ∈ l', p c = true := fun x hx => hl x (by simp [hx])
    simp [List.takeWhile, hc, ih this]

/-- Splitting a name of the shape `path ++ "/" ++ valueName` where the
value name holds no slash recovers the pair exactly. -/
theorem splitName_join (p vn : Str) (h : 47 ∉ vn) :
    splitName (p ++ 47 :: vn) = (p, vn) := by
  have hrev : (p ++ 47 :: vn).reverse = vn.reverse ++ 47 :: p.reverse := by
    simp
  have htw : (vn.reverse ++ 47 :: p.reverse).takeWhile (fun c => c != 47) = vn.reverse := by
    apply takeWhile_append_of_all
    · intro c hc
      have : c ∈ vn := by simpa using hc
      have : c ≠ 47 := fun he => h (he ▸ this)
      simpa using this
    · intro _
      simp [List.headI]
  simp only [splitName, hrev, htw]
  have hlen : vn.reverse.length ≠ (vn.reverse ++ 47 :: p.reverse).length := by
    simp
  rw [if_neg (by simpa using hlen)]
  have hdrop : (vn.reverse ++ 47 :: p.reverse).drop (vn.reverse.length + 1) = p.reverse := by
    have h1 : vn.reverse.length + 1 = (vn.reverse ++ [47]).length := by simp
    have h2 : vn.reverse ++ 47 :: p.reverse = (vn.reverse ++ [47]) ++ p.reverse := by simp
    rw [h1, h2, List.drop_left]
  rw [hdrop]
  simp

/-- Splitting a slash-free name yields an empty key path. -/
theorem splitName_no_slash (n : Str) (h : 47 ∉ n) : splitName n = ([], n) := by
  have htw : n.reverse.takeWhile (fun c => c != 47) = n.reverse := by
    rw [List.takeWhile_eq_self_iff]
    intro c hc
    have : c ∈ n := by simpa using hc
    have : c ≠ 47 := fun he => h (he ▸ this)
    simpa using this
  simp [splitName, htw]

theorem bytesToDword_encodeDword (w : Nat) (h : w < 2 ^ 32) :
    bytesToDword (encodeDword w) = w := by
  simp [bytesToDword, encodeDword, List.getD]
  omega

theorem toUInt32_toInt32 (w : Nat) (h : w < 2 ^ 32) : toUInt32 (toInt32 w) = w := by
  unfold toUInt32 toInt32
  split <;> omega

theorem toInt32_toUInt32 (i : Int) (h1 : -(2 ^ 31) ≤ i) (h2 : i < 2 ^ 31) :
    toInt32 (toUInt32 i) = i := by
  unfold toUInt32 toInt32
  split <;> omega

theorem toInt32_range (w : Nat) (h : w < 2 ^ 32) :
    -(2 ^ 31) ≤ toInt32 w ∧ toInt32 w < 2 ^ 31 := by
  unfold toInt32
  split <;> omega

theorem decodeSz_append_zero (s : Str) (h : 0 ∉ s) : decodeSz (s ++ [0]) = s := by
  unfold decodeSz
  apply takeWhile_append_of_all
  · intro c hc
    have : c ≠ 0 := fun he => h (he ▸ hc)
    simpa using this
  · intro _
    simp [List.headI]

theorem saveStringData_wf (s : Str) (h : 0 ∉ s) : wfSzData (saveStringData s) = true := by
  have : saveStringData s = s ++ [0] := by
    unfold saveStringData
    by_cases hs : 0 < s.length
    · rw [if_pos hs]
    · rw [if_neg hs]
      have : s = [] := by
        cases s with
        | nil => rfl
        | cons a l => simp at hs
      simp [this]
  rw [this]
  simp [wfSzData, decodeSz_append_zero s h]

theorem saveStringData_eq (u : Str) : saveStringData u = u ++ [0] := by
  unfold saveStringData
  by_cases hs : 0 < u.length
  · rw [if_pos hs]
  · rw [if_neg hs]
    have hu : u = [] := by
      cases u with
      | nil => rfl
      | cons a l => simp at hs
    simp [hu]

theorem qStep_count (s : IOState) (h : s.queueCount = s.queue.length) (o : QOp) :
    (qStep s o).queueCount = (qStep s o).queue.length := by
  cases o with
  | enqueue ok nm v =>
    cases ok <;> simp [qStep, writeAsync, h]
  | work =>
    cases hq : s.queue with
    | nil => simpa [qStep, workerStep, hq] using h
    | cons w rest =>
      cases w
      rw [hq] at h
      simp only [qStep, workerStep, hq, h]
      simp

theorem runQ_count (st : Store) (ops : List QOp) :
    (runQ (emptyQueueState st) ops).queueCount = (runQ (emptyQueueState st) ops).queue.length := by
  suffices hgen : ∀ s : IOState, s.queueCount = s.queue.length →
      (runQ s ops).queueCount = (runQ s ops).queue.length by
    exact hgen (emptyQueueState st) rfl
  induction ops with
  | nil => intro s h; exact h
  | cons o rest ih =>
    intro s h
    exact ih (qStep s o) (qStep_count s h o)

theorem drainList_spec (q : List PendingWrite) :
    ∀ (c : Nat) (st : Store), (drainList c q st).queue = [] ∧
      (drainList c q st).store = q.foldl (fun s w => applyWrite s w.1 w.2) st := by
  induction q with
  | nil => intro c st; exact ⟨rfl, rfl⟩
  | cons w rest ih =>
    intro c st
    cases w
    simpa [drainList] using ih (c - 1) _

theorem eraseKey_sublist {κ α : Type} [DecidableEq κ] (l : List (κ × α)) (k : κ) :
    (eraseKey l k).Sublist l := by
  induction l with
  | nil => simp [eraseKey]
  | cons e r ih =>
    by_cases h : e.1 = k
    · simp only [eraseKey, if_pos h]
      exact ih.trans (List.sublist_cons_self e r)
    · simp only [eraseKey, if_neg h]
      exact ih.cons₂ e

theorem not_mem_keys_eraseKey {κ α : Type} [DecidableEq κ] (l : List (κ × α)) (k : κ) :
    k ∉ (eraseKey l k).map Prod.fst := by
  induction l with
  | nil => simp [eraseKey]
  | cons e r ih =>
    by_cases h : e.1 = k
    · simpa [eraseKey, h] using ih
    · simp only [eraseKey, if_neg h, List.map_cons, List.mem_cons]
      rintro (rfl | hm)
      · exact h rfl
      · exact ih hm

theorem updateA_keys_nodup {κ α : Type} [DecidableEq κ] (l : List (κ × α)) (k : κ) (v : α)
    (h : (l.map Prod.fst).Nodup) : ((updateA l k v).map Prod.fst).Nodup := by
  simp only [updateA, List.map_cons, List.nodup_cons]
  exact ⟨not_mem_keys_eraseKey l k,
    h.sublist ((eraseKey_sublist l k).map Prod.fst)⟩

theorem cacheStep_flag (c : KeyCache) (o : CacheOp) :
    (cacheStep c o).closeHandleFlag = c.closeHandleFlag := by
  cases o with
  | openK p b =>
    simp only [cacheStep, cacheOpenKey]
    cases findA c.hKeys p with
    | some h => rfl
    | none =>
      by_cases hb : b
      · simp [hb]
      · by_cases hc : p ∈ c.regKeys
        · simp [hb, hc]
        · simp [hb, hc]
  | closeK p =>
    simp only [cacheStep, cacheCloseKey]
    split <;> rfl
  | closeAll => rfl

theorem cacheStep_nodup (c : KeyCache) (o : CacheOp)
    (h : (c.hKeys.map Prod.fst).Nodup) : ((cacheStep c o).hKeys.map Prod.fst).Nodup := by
  cases o with
  | openK p b =>
    simp only [cacheStep, cacheOpenKey]
    cases findA c.hKeys p with
    | some hd => exact h
    | none =>
      by_cases hb : b
      · simpa [hb] using updateA_keys_nodup c.hKeys p c.nextH h
      · by_cases hc : p ∈ c.regKeys
        · simpa [hb, hc] using updateA_keys_nodup c.hKeys p c.nextH h
        · simpa [hb, hc] using h
  | closeK p =>
    simp only [cacheStep, cacheCloseKey]
    split
    · exact h.sublist ((eraseKey_sublist c.hKeys p).map Prod.fst)
    · exact h
  | closeAll => simp [cacheStep, cacheCloseAll]

theorem runCache_invariant (rk : List Str) (ops : List CacheOp) :
    ((runCache (initCache rk) ops).hKeys.map Prod.fst).Nodup ∧
      (runCache (initCache rk) ops).closeHandleFlag = false := by
  suffices hgen : ∀ c : KeyCache, (c.hKeys.map Prod.fst).Nodup → c.closeHandleFlag = false →
      ((runCache c ops).hKeys.map Prod.fst).Nodup ∧
        (runCache c ops).closeHandleFlag = false by
    exact hgen (initCache rk) (by simp [initCache]) rfl
  induction ops with
  | nil => intro c h1 h2; exact ⟨h1, h2⟩
  | cons o rest ih =>
    intro c h1 h2
    exact ih (cacheStep c o) (cacheStep_nodup c o h1) ((cacheStep_flag c o).trans h2)

theorem cacheStep_preserves_entry (c : KeyCache) (o : CacheOp)
    (hflag : c.closeHandleFlag = false) (hno : o ≠ CacheOp.closeAll)
    (p : Str) (h : Nat) (hent : findA c.hKeys p = some h) :
    findA (cacheStep c o).hKeys p = some h := by
  cases o with
  | openK q b =>
    simp only [cacheStep, cacheOpenKey]
    cases hq : findA c.hKeys q with
    | some hd => exact hent
    | none =>
      have hpq : p ≠ q := by
        intro he; rw [he, hq] at hent; exact Option.noConfusion hent
      by_cases hb : b
      · simpa [hb] using (findA_updateA_ne c.hKeys q p c.nextH hpq).trans hent
      · by_cases hc : q ∈ c.regKeys
        · simpa [hb, hc] using (findA_updateA_ne c.hKeys q p c.nextH hpq).trans hent
        · simpa [hb, hc] using hent
  | closeK q =>
    simpa [cacheStep, cacheCloseKey, hflag] using hent
  | closeAll => exact absurd rfl hno

theorem strFind_zero_iff (hay needle : Str) :
    strFind hay needle = some 0 ↔ needle.isPrefixOf hay = true := by
  unfold strFind
  by_cases h : needle.isPrefixOf hay
  · simp [h]
  · rw [if_neg (by simpa using h)]
    constructor
    · intro hc
      exfalso
      cases hay with
      | nil => simp at hc
      | cons a t =>
        simp only at hc
        cases hfs : strFind t needle with
        | none => rw [hfs] at hc; simp at hc
        | some i => rw [hfs] at hc; simp at hc
    · intro hc; exact absurd hc h

theorem storeLookup_deleteValue_self (st : Store) (p vn : Str) :
    storeLookup (storeDeleteValue st p vn) (p, vn) = none :=
  findA_eraseKey_self st (p, vn)

theorem storeLookup_deleteTree_self (st : Store) (p vn : Str) :
    storeLookup (storeDeleteTree st p) (p, vn) = none := by
  apply findA_filter_of_pred_false
  intro d
  simp

theorem runCache_preserves_entry (ops : List CacheOp) :
    ∀ c : KeyCache, c.closeHandleFlag = false → (∀ o ∈ ops, o ≠ CacheOp.closeAll) →
      ∀ (p : Str) (h : Nat), findA c.hKeys p = some h →
        findA (runCache c ops).hKeys p = some h := by
  induction ops with
  | nil => intro c _ _ p h he; exact he
  | cons o rest ih =>
    intro c hflag hno p h he
    apply ih (cacheStep c o) ((cacheStep_flag c o).trans hflag)
      (fun x hx => hno x (by simp [hx]))
    exact cacheStep_preserves_entry c o hflag (hno o (by simp)) p h he

theorem natDigitsAux_congr : ∀ f g n : Nat, n < f → n < g → natDigitsAux f n = natDigitsAux g n := by
  intro f
  induction f with
  | zero => intro g n hf; omega
  | succ f ih =>
    intro g n hf hg
    cases g with
    | zero => omega
    | succ g =>
      simp only [natDigitsAux]
      by_cases h10 : n < 10
      · simp [h10]
      · rw [if_neg h10, if_neg h10]
        rw [ih g (n / 10) (by omega) (by omega)]

theorem natDigits_lt10 (n : Nat) (h : n < 10) : natDigits n = [48 + n] := by
  unfold natDigits
  simp [natDigitsAux, h]

theorem natDigits_ge10 (n : Nat) (h : 10 ≤ n) :
    natDigits n = natDigits (n / 10) ++ [48 + n % 10] := by
  unfold natDigits
  simp only [natDigitsAux]
  rw [if_neg (by omega)]
  congr 1
  exact natDigitsAux_congr n (n / 10 + 1) (n / 10) (by omega) (by omega)

theorem natDigits_mem (n : Nat) : ∀ c ∈ natDigits n, 48 ≤ c ∧ c ≤ 57 := by
  induction n using Nat.strong_induction_on with
  | _ n ih =>
    by_cases h : n < 10
    · rw [natDigits_lt10 n h]
      intro c hc
      simp at hc
      omega
    · rw [natDigits_ge10 n (by omega)]
      intro c hc
      rw [List.mem_append] at hc
      cases hc with
      | inl hm => exact ih (n / 10) (by omega) c hm
      | inr hm =>
        simp at hm
        omega

theorem natDigits_ne_nil (n : Nat) : natDigits n ≠ [] := by
  by_cases h : n < 10
  · rw [natDigits_lt10 n h]; simp
  · rw [natDigits_ge10 n (by omega)]; simp

theorem parseDigits_append (base : Nat) (xs ys : Str)
    (h : ∀ c ∈ xs, (digitVal base c).isSome) :
    ∀ acc : Nat, parseDigits base (xs ++ ys) acc =
      parseDigits base ys (parseDigits base xs acc) := by
  induction xs with
  | nil => intro acc; rfl
  | cons c r ih =>
    intro acc
    have hc := h c (by simp)
    cases hd : digitVal base c with
    | none => rw [hd] at hc; simp at hc
    | some d =>
      simp only [List.cons_append, parseDigits, hd]
      exact ih (fun x hx => h x (by simp [hx])) _

theorem digitVal_ten (c : Nat) (h : 48 ≤ c ∧ c ≤ 57) : digitVal 10 c = some (c - 48) := by
  unfold digitVal
  rw [if_pos (by omega)]

theorem parseDigits_natDigits (n : Nat) :
    ∀ acc : Nat, parseDigits 10 (natDigits n) acc =
      acc * 10 ^ (natDigits n).length + n := by
  induction n using Nat.strong_induction_on with
  | _ n ih =>
    intro acc
    by_cases h : n < 10
    · rw [natDigits_lt10 n h]
      have hd : digitVal 10 (48 + n) = some n := by
        rw [digitVal_ten (48 + n) (by omega)]
        congr 1
        omega
      simp only [parseDigits, hd]
      simp
    · rw [natDigits_ge10 n (by omega)]
      rw [parseDigits_append 10 _ _ (fun c hc => by
        have := natDigits_mem (n / 10) c hc
        rw [digitVal_ten c this]
        rfl) acc]
      rw [ih (n / 10) (by omega) acc]
      have hd : digitVal 10 (48 + n % 10) = some (n % 10) := by
        rw [digitVal_ten (48 + n % 10) (by omega)]
        congr 1
        omega
      simp only [parseDigits, hd]
      rw [List.length_append]
      have hmod : 10 * (n / 10) + n % 10 = n := by omega
      calc (acc * 10 ^ (natDigits (n / 10)).length + n / 10) * 10 + n % 10
          = acc * (10 ^ (natDigits (n / 10)).length * 10) +
            (10 * (n / 10) + n % 10) := by ring
        _ = acc * 10 ^ ((natDigits (n / 10)).length + [48 + n % 10].length) + n := by
            rw [List.length_singleton, pow_succ, hmod]

theorem parseDigits_natDigits_zero (n : Nat) : parseDigits 10 (natDigits n) 0 = n := by
  rw [parseDigits_natDigits n 0]
  simp

theorem parseDigitsPrefixed_ten (r : Str) : parseDigitsPrefixed 10 r = parseDigits 10 r 0 := by
  cases r with
  | nil => rfl
  | cons a t =>
    cases t with
    | nil => rfl
    | cons b u => rfl

theorem tcstoll_intToText (i : Int) (h1 : -(2 ^ 31) ≤ i) (h2 : i < 2 ^ 31) :
    tcstoll (intToText i) 10 = i := by
  unfold intToText
  by_cases hneg : i < 0
  · rw [if_pos hneg]
    have hred : tcstoll (45 :: natDigits (-i).toNat) 10 =
        -(Int.ofNat (parseDigitsPrefixed 10 (natDigits (-i).toNat))) := rfl
    rw [hred, parseDigitsPrefixed_ten, parseDigits_natDigits_zero]
    have hcast : (Int.ofNat (-i).toNat) = -i := by
      exact_mod_cast Int.toNat_of_nonneg (by omega)
    rw [hcast, neg_neg]
  · rw [if_neg hneg]
    cases hnd : natDigits i.toNat with
    | nil => exact absurd hnd (natDigits_ne_nil _)
    | cons c r =>
      have hc := natDigits_mem i.toNat c (by rw [hnd]; simp)
      unfold tcstoll
      rw [if_neg (by simp only [List.headI]; omega)]
      rw [if_neg (by simp only [List.headI]; omega)]
      rw [parseDigitsPrefixed_ten, ← hnd, parseDigits_natDigits_zero]
      exact_mod_cast Int.toNat_of_nonneg (by omega)

theorem intToText_getD_one (i : Int) : (intToText i).getD 1 0 ≠ 120 := by
  unfold intToText
  by_cases hneg : i < 0
  · rw [if_pos hneg]
    cases hnd : natDigits (-i).toNat with
    | nil => exact absurd hnd (natDigits_ne_nil _)
    | cons c r =>
      have hc := natDigits_mem (-i).toNat c (by rw [hnd]; simp)
      simp [List.getD]
      omega
  · rw [if_neg hneg]
    cases hnd : natDigits i.toNat with
    | nil => exact absurd hnd (natDigits_ne_nil _)
    | cons c r =>
      cases r with
      | nil => simp [List.getD]
      | cons c2 r2 =>
        have hc2 := natDigits_mem i.toNat c2 (by rw [hnd]; simp)
        simp [List.getD]
        omega

theorem intToText_mem (i : Int) : ∀ c ∈ intToText i, c = 45 ∨ (48 ≤ c ∧ c ≤ 57) := by
  unfold intToText
  by_cases hneg : i < 0
  · rw [if_pos hneg]
    intro c hc
    rcases List.mem_cons.1 hc with h | h
    · exact Or.inl h
    · exact Or.inr (natDigits_mem _ c h)
  · rw [if_neg hneg]
    intro c hc
    exact Or.inr (natDigits_mem _ c hc)

theorem escChar_ne_nil (c : Nat) : escChar c ≠ [] := by
  unfold escChar
  split_ifs <;> simp

theorem unesc_escape (u : Str) : unescValue (escapeValue u) = u := by
  induction u with
  | nil => rfl
  | cons c r ih =>
    have hexp : escapeValue (c :: r) = escChar c ++ escapeValue r := by
      simp [escapeValue]
    rw [hexp]
    by_cases hs : c = 92 ∨ c = 10 ∨ c = 13 ∨ c = 59 ∨ c = 61
    · obtain ⟨x, hx1, hx2⟩ : ∃ x, escChar c = [92, x] ∧ unescChar x = c := by
        rcases hs with h | h | h | h | h <;> subst h <;> exact ⟨_, rfl, rfl⟩
      rw [hx1]
      show unescValue (92 :: x :: escapeValue r) = c :: r
      rw [unescValue, if_pos rfl, hx2, ih]
    · push_neg at hs
      obtain ⟨h92, h10, h13, h59, h61⟩ := hs
      have hesc : escChar c = [c] := by
        simp [escChar, h92, h10, h13, h59, h61]
      rw [hesc]
      cases hE : escapeValue r with
      | nil =>
        have hrn : r = [] := by
          cases r with
          | nil => rfl
          | cons a t =>
            exfalso
            have hra : escapeValue (a :: t) = escChar a ++ escapeValue t := by
              simp [escapeValue]
            rw [hra] at hE
            cases hesc2 : escChar a with
            | nil => exact escChar_ne_nil a hesc2
            | cons y ys => rw [hesc2] at hE; simp at hE
        subst hrn
        rfl
      | cons d E2 =>
        show unescValue (c :: d :: E2) = c :: r
        rw [unescValue, if_neg h92, ← hE, ih]

theorem unesc_no_escape : ∀ s : Str, 92 ∉ s → unescValue s = s
  | [], _ => rfl
  | [_], _ => rfl
  | c :: d :: r, h => by
    have hc : c ≠ 92 := fun he => h (by simp [he])
    rw [unescValue, if_neg hc,
      unesc_no_escape (d :: r) (fun hm => h (List.mem_cons_of_mem c hm))]

mutual

theorem exportWalk_eq (m : OptionsMap) (t : RegTree) (p : Str) :
    exportWalk m t p =
      (allValues t p).filterMap (fun x => exportValue m x.1 x.2.1 x.2.2) := by
  cases t with
  | node vs sks =>
    simp only [exportWalk, allValues, List.filterMap_append, List.filterMap_map]
    rw [exportWalkSubs_eq m sks p]
    rfl

theorem exportWalkSubs_eq (m : OptionsMap) (sks : Subkeys) (p : Str) :
    exportWalkSubs m sks p =
      (allValuesSubs sks p).filterMap (fun x => exportValue m x.1 x.2.1 x.2.2) := by
  cases sks with
  | nil => rfl
  | cons nm t rest =>
    simp only [exportWalkSubs, allValuesSubs, List.filterMap_append]
    rw [exportWalk_eq m t (joinPath p nm), exportWalkSubs_eq m rest p]

end

theorem exportValue_char (m : OptionsMap) (p vn : Str) (d : RegData) (e : ExpEntry)
    (h : exportValue m p vn d = some e) :
    e.name = joinName p vn ∧ findA m (joinName p vn) = none ∧
      ((d.dwType = REG_DWORD ∧
          e = ⟨joinName p vn, intToText (toInt32 (bytesToDword d.data)), intTag⟩) ∨
        (d.dwType = REG_SZ ∧
          e = ⟨joinName p vn, escapeValue (decodeSz d.data), stringTag⟩)) := by
  unfold exportValue at h
  by_cases h1 : findA m (joinName p vn) = none
  · rw [if_pos h1] at h
    by_cases h2 : d.dwType = REG_DWORD
    · rw [if_pos h2] at h
      obtain rfl := Option.some.inj h
      exact ⟨rfl, h1, Or.inl ⟨h2, rfl⟩⟩
    · rw [if_neg h2] at h
      by_cases h3 : d.dwType = REG_SZ
      · rw [if_pos h3] at h
        obtain rfl := Option.some.inj h
        exact ⟨rfl, h1, Or.inr ⟨h3, rfl⟩⟩
      · rw [if_neg h3] at h
        exact Option.noConfusion h
  · rw [if_neg h1] at h
    exact Option.noConfusion h

theorem findA_entry_section (entries : List ExpEntry) (f : ExpEntry → Str) (e : ExpEntry)
    (hmem : e ∈ entries) (hnd : (entries.map ExpEntry.name).Nodup) :
    findA (entries.map (fun x => (x.name, f x))) e.name = some (f e) := by
  induction entries with
  | nil => simp at hmem
  | cons a rest ih =>
    rw [List.map_cons, List.nodup_cons] at hnd
    rcases List.mem_cons.1 hmem with rfl | hm
    · simp [findA]
    · have hne : a.name ≠ e.name := by
        intro he
        apply hnd.1
        rw [he]
        exact List.mem_map_of_mem ExpEntry.name hm
      simp only [List.map_cons, findA, if_neg hne]
      exact ih hm hnd.2

theorem importStep_other (types : List (Str × Str)) (m : OptionsMap) (st : Store)
    (kv : Str × Str) (loc : StoreKey) (h : loc ≠ splitName kv.1) :
    storeLookup (importStep types m st kv) loc = storeLookup st loc := by
  unfold importStep
  split
  · split
    · split
      · unfold storeLookup storeWrite
        exact findA_updateA_ne st _ loc _ (by simpa using h)
      · rfl
    · rfl
  · rfl

theorem importStep_write (types : List (Str × Str)) (m : OptionsMap) (st : Store)
    (k txt ty : Str) (d : RegData)
    (hm : findA m k = none) (hty : findA types k = some ty)
    (hsv : (saveValueToReg (parseIniValue ty txt)).1 = some d) :
    storeLookup (importStep types m st (k, txt)) (splitName k) = some d := by
  unfold importStep
  simp only [if_pos hm, hty, hsv]
  unfold storeLookup storeWrite
  have hk : splitName k = ((splitName k).1, (splitName k).2) := rfl
  rw [hk]
  exact findA_updateA_self st _ _

theorem importFold_frame (types : List (Str × Str)) (m : OptionsMap) (loc : StoreKey) :
    ∀ (vals : List (Str × Str)) (st : Store),
      (∀ kv ∈ vals, loc ≠ splitName kv.1 ∨ findA m kv.1 ≠ none ∨ findA types kv.1 = none) →
      storeLookup (vals.foldl (importStep types m) st) loc = storeLookup st loc := by
  intro vals
  induction vals with
  | nil => intro st _; rfl
  | cons kv rest ih =>
    intro st h
    rw [List.foldl_cons, ih (importStep types m st kv) (fun x hx => h x (by simp [hx]))]
    rcases h kv (by simp) with hloc | hm | hty
    · exact importStep_other types m st kv loc hloc
    · unfold importStep
      rw [if_neg hm]
    · unfold importStep
      split
      · rw [hty]
      · rfl

theorem importFold_write (types : List (Str × Str)) (m : OptionsMap)
    (l1 l2 : List (Str × Str)) (k txt ty : Str) (d : RegData)
    (hm : findA m k = none) (hty : findA types k = some ty)
    (hsv : (saveValueToReg (parseIniValue ty txt)).1 = some d)
    (hrest : ∀ kv ∈ l2, splitName k ≠ splitName kv.1 ∨ findA m kv.1 ≠ none ∨
      findA types kv.1 = none)
    (st : Store) :
    storeLookup ((l1 ++ (k, txt) :: l2).foldl (importStep types m) st) (splitName k) =
      some d := by
  rw [List.foldl_append, List.foldl_cons]
  rw [importFold_frame types m (splitName k) l2 _ hrest]
  exact importStep_write types m _ k txt ty d hm hty hsv

theorem bytesToDword_encodeDword_mod (w : Nat) :
    bytesToDword (encodeDword w) = w % 2 ^ 32 := by
  simp [bytesToDword, encodeDword, List.getD]
  omega

theorem roundtrip_dword (d : List Nat) (hwf : wfDwordData d = true) :
    (saveValueToReg (parseIniValue intTag
      (unescValue (intToText (toInt32 (bytesToDword d)))))).1 =
      some ⟨REG_DWORD, d⟩ := by
  have hde : encodeDword (bytesToDword d) = d := by
    simpa [wfDwordData] using hwf
  have hlt : bytesToDword d < 2 ^ 32 := by
    have hmod := bytesToDword_encodeDword_mod (bytesToDword d)
    rw [hde] at hmod
    omega
  have hrange := toInt32_range (bytesToDword d) hlt
  have htext : unescValue (intToText (toInt32 (bytesToDword d))) =
      intToText (toInt32 (bytesToDword d)) := by
    apply unesc_no_escape
    intro hmem
    rcases intToText_mem (toInt32 (bytesToDword d)) 92 hmem with h | h <;> omega
  rw [htext]
  unfold parseIniValue
  rw [if_neg (by decide), if_pos (by decide)]
  rw [if_neg (fun hc => intToText_getD_one (toInt32 (bytesToDword d)) hc.2)]
  rw [tcstoll_intToText (toInt32 (bytesToDword d)) hrange.1 hrange.2]
  rw [toUInt32_toInt32 (bytesToDword d) hlt]
  simp only [saveValueToReg]
  rw [toUInt32_toInt32 (bytesToDword d) hlt, hde]

theorem roundtrip_sz (d : List Nat) (hwf : wfSzData d = true) :
    (saveValueToReg (parseIniValue stringTag
      (unescValue (escapeValue (decodeSz d))))).1 = some ⟨REG_SZ, d⟩ := by
  have hde : decodeSz d ++ [0] = d := by
    simpa [wfSzData] using hwf
  rw [unesc_escape]
  unfold parseIniValue
  rw [if_neg (by decide), if_neg (by decide), if_pos (by decide)]
  simp only [saveValueToReg]
  rw [saveStringData_eq, hde]

theorem readIni_vals (entries : List ExpEntry) :
    readIniSection (iniValsOf entries) =
      entries.map (fun x => (x.name, unescValue x.text)) := by
  unfold readIniSection iniValsOf
  rw [List.map_map]
  rfl

theorem readIni_types (entries : List ExpEntry) :
    readIniSection (iniTypesOf entries) =
      entries.map (fun x => (x.name, unescValue x.tag)) := by
  unfold readIniSection iniTypesOf
  rw [List.map_map]
  rfl

theorem splitName_joinName (p vn : Str) (h : 47 ∉ vn) :
    splitName (joinName p vn) = (p, vn) :=
  splitName_join p vn h

theorem getD_append_len (l r : Str) (d : Nat) : (l ++ r).getD l.length d = r.getD 0 d := by
  induction l with
  | nil => rfl
  | cons a t ih => simpa [List.getD] using ih

theorem eraseCond_true_iff (p k : Str) :
    eraseCond p k = true ↔ (p ++ [47]).isPrefixOf k = true := by
  unfold eraseCond
  rw [Bool.and_eq_true, Bool.and_eq_true]
  rw [List.isPrefixOf_iff_prefix, beq_iff_eq, beq_iff_eq, decide_eq_true_eq]
  constructor
  · rintro ⟨⟨hfind, hlen⟩, hat⟩
    have hpre : p.isPrefixOf k = true := (strFind_zero_iff k p).1 hfind
    rw [List.isPrefixOf_iff_prefix] at hpre
    obtain ⟨rest, hrest⟩ := hpre
    cases rest with
    | nil =>
      exfalso
      rw [← hrest] at hlen
      simp at hlen
    | cons c rs =>
      rw [← hrest] at hat
      rw [getD_append_len p (c :: rs) 0] at hat
      simp only [List.getD] at hat
      simp at hat
      exact ⟨rs, by rw [← hrest, hat]; simp⟩
  · rintro ⟨rest, hrest⟩
    have hk : k = p ++ 47 :: rest := by
      rw [← hrest]
      simp
    refine ⟨⟨?_, ?_⟩, ?_⟩
    · apply (strFind_zero_iff k p).2
      rw [List.isPrefixOf_iff_prefix]
      exact ⟨47 :: rest, by rw [hk]⟩
    · rw [hk]
      simp
    · rw [hk, getD_append_len p (47 :: rest) 0]
      rfl

theorem findA_filter_eraseCond (t : OptionsMap) (p k : Str) :
    findA (t.filter (fun e => !(eraseCond p e.1))) k =
      if (p ++ [47]).isPrefixOf k then none else findA t k := by
  by_cases h : (p ++ [47]).isPrefixOf k = true
  · rw [if_pos h]
    apply findA_filter_of_pred_false
    intro v
    have : eraseCond p k = true := (eraseCond_true_iff p k).2 h
    simp [this]
  · rw [if_neg h]
    apply findA_filter_of_pred_true
    intro v
    have : eraseCond p k = false := by
      cases hc : eraseCond p k
      · rfl
      · exact absurd ((eraseCond_true_iff p k).1 hc) h
    simp [this]

/-- C1: `IOHandler::Remove` first waits for the pending-write count to
reach zero, which the worker brings about by draining the queue, and
only then acquires the lock and deletes the value or subtree; hence
after `Remove(n)` the backlog is empty, the deletion applies to the
already-flushed store, and an immediate `Read(n)` observes no stale
pre-delete value, even when a write to `n` was enqueued just before the
`Remove`. -/
theorem remove_flushes_before_delete (s : IOState) (nm : Str) (v : VariantValue)
    (h : (nm, v) ∈ s.queue) :
    (regRemove nm s).queue = [] ∧
    (regRemove nm s).store =
      (if (splitName nm).2 = [] then storeDeleteTree (drainQueue s).store (splitName nm).1
       else storeDeleteValue (drainQueue s).store (splitName nm).1 (splitName nm).2) ∧
    regRead (regRemove nm s) nm = none := by
  have hq : (drainQueue s).queue = [] := (drainList_spec s.queue s.queueCount s.store).1
  refine ⟨?_, ?_, ?_⟩
  · unfold regRemove
    split
    · exact hq
    · exact hq
  · unfold regRemove
    split
    · simp
    · simp
  · unfold regRead regRemove
    by_cases hvn : (splitName nm).2 = []
    · rw [if_pos hvn]
      have : splitName nm = ((splitName nm).1, (splitName nm).2) := rfl
      rw [this, hvn]
      exact storeLookup_deleteTree_self (drainQueue s).store (splitName nm).1 []
    · rw [if_neg hvn]
      have : splitName nm = ((splitName nm).1, (splitName nm).2) := rfl
      rw [this]
      exact storeLookup_deleteValue_self (drainQueue s).store (splitName nm).1 (splitName nm).2

/-- C7: export writes one (value, type-tag) entry pair exactly for the
store values whose full option name is not a key of the options map and
whose store tag is `REG_DWORD` (written with tag `int`) or `REG_SZ`
(written with tag `string`); values with any other tag are skipped, and
a value whose name is in the options map is never exported. -/
theorem export_exactly_unmanaged (m : OptionsMap) (t : RegTree) :
    exportWalk m t [] =
      (allValues t []).filterMap (fun x => exportValue m x.1 x.2.1 x.2.2) ∧
    (∀ e ∈ exportWalk m t [], findA m e.name = none ∧
      (e.tag = intTag ∨ e.tag = stringTag)) ∧
    (∀ (p vn : Str) (d : RegData), (p, vn, d) ∈ allValues t [] →
      findA m (joinName p vn) = none → d.dwType = REG_DWORD →
      (⟨joinName p vn, intToText (toInt32 (bytesToDword d.data)), intTag⟩ : ExpEntry) ∈
        exportWalk m t []) ∧
    (∀ (p vn : Str) (d : RegData), (p, vn, d) ∈ allValues t [] →
      findA m (joinName p vn) = none → d.dwType = REG_SZ →
      (⟨joinName p vn, escapeValue (decodeSz d.data), stringTag⟩ : ExpEntry) ∈
        exportWalk m t []) ∧
    (∀ (p vn : Str) (d : RegData), findA m (joinName p vn) ≠ none →
      exportValue m p vn d = none) ∧
    (∀ (p vn : Str) (d : RegData), d.dwType ≠ REG_DWORD → d.dwType ≠ REG_SZ →
      exportValue m p vn d = none) := by
  refine ⟨exportWalk_eq m t [], ?_, ?_, ?_, ?_, ?_⟩
  · intro e he
    rw [exportWalk_eq m t []] at he
    obtain ⟨x, hx, hxe⟩ := List.mem_filterMap.1 he
    obtain ⟨hname, hnone, hcase⟩ := exportValue_char m x.1 x.2.1 x.2.2 e hxe
    constructor
    · rw [hname]; exact hnone
    · rcases hcase with ⟨_, rfl⟩ | ⟨_, rfl⟩
      · exact Or.inl rfl
      · exact Or.inr rfl
  · intro p vn d hmem hnone htag
    rw [exportWalk_eq m t []]
    apply List.mem_filterMap.2
    refine ⟨(p, vn, d), hmem, ?_⟩
    unfold exportValue
    rw [if_pos hnone, if_pos htag]
  · intro p vn d hmem hnone htag
    rw [exportWalk_eq m t []]
    apply List.mem_filterMap.2
    refine ⟨(p, vn, d), hmem, ?_⟩
    unfold exportValue
    rw [if_pos hnone, if_neg (by rw [htag]; decide), if_pos htag]
  · intro p vn d hnone
    unfold exportValue
    rw [if_neg hnone]
  · intro p vn d h4 h1
    simp [exportValue, h4, h1]

/-- C7 witness: with `Settings/Width` managed in the options map and an
unmanaged `Settings/DebugFlag` word in the store, export emits the
DebugFlag entry. -/
theorem export_exactly_unmanaged_witness :
    (([83, 101, 116, 116, 105, 110, 103, 115], [68, 101, 98, 117, 103, 70, 108, 97, 103],
        (⟨4, [1, 0, 0, 0]⟩ : RegData)) ∈
      allValues (RegTree.node []
        (Subkeys.cons [83, 101, 116, 116, 105, 110, 103, 115]
          (RegTree.node [([87, 105, 100, 116, 104], ⟨4, [100, 0, 0, 0]⟩),
            ([68, 101, 98, 117, 103, 70, 108, 97, 103], ⟨4, [1, 0, 0, 0]⟩)] Subkeys.nil)
          Subkeys.nil)) []) ∧
    (⟨joinName [83, 101, 116, 116, 105, 110, 103, 115]
        [68, 101, 98, 117, 103, 70, 108, 97, 103],
      intToText (toInt32 (bytesToDword [1, 0, 0, 0])), intTag⟩ : ExpEntry) ∈
      exportWalk [([83, 101, 116, 116, 105, 110, 103, 115, 47, 87, 105, 100, 116, 104],
        VariantValue.intV 100)]
        (RegTree.node []
          (Subkeys.cons [83, 101, 116, 116, 105, 110, 103, 115]
            (RegTree.node [([87, 105, 100, 116, 104], ⟨4, [100, 0, 0, 0]⟩),
              ([68, 101, 98, 117, 103, 70, 108, 97, 103], ⟨4, [1, 0, 0, 0]⟩)] Subkeys.nil)
            Subkeys.nil)) [] :=
  ⟨by decide,
    (export_exactly_unmanaged
      [([83, 101, 116, 116, 105, 110, 103, 115, 47, 87, 105, 100, 116, 104],
        VariantValue.intV 100)]
      (RegTree.node []
        (Subkeys.cons [83, 101, 116, 116, 105, 110, 103, 115]
          (RegTree.node [([87, 105, 100, 116, 104], ⟨4, [100, 0, 0, 0]⟩),
            ([68, 101, 98, 117, 103, 70, 108, 97, 103], ⟨4, [1, 0, 0, 0]⟩)] Subkeys.nil)
          Subkeys.nil))).2.2.1
      [83, 101, 116, 116, 105, 110, 103, 115] [68, 101, 98, 117, 103, 70, 108, 97, 103]
      ⟨4, [1, 0, 0, 0]⟩ (by decide) (by decide) (by decide)⟩

/-- C2: importing the exported flat file writes back, for every exported
(name, value) pair whose name is absent from the destination options map
at import time, exactly the original (type tag, data) pair at the
original store location; a pair whose name is present in the destination
map is left untouched in the store; and, over arbitrary ini sections, a
values entry with no matching type-tag entry writes nothing (it is
silently skipped). -/
theorem export_import_roundtrip (t : RegTree) (em dm : OptionsMap) (st : Store)
    (hwf : treeWF t = true)
    (hnd : ((exportWalk em t []).map ExpEntry.name).Nodup) :
    (∀ (p vn : Str) (d : RegData), (p, vn, d) ∈ allValues t [] →
      findA em (joinName p vn) = none →
      (d.dwType = REG_DWORD ∨ d.dwType = REG_SZ) →
      ((findA dm (joinName p vn) = none →
        storeLookup (importAllUnloadedValues
          (readIniSection (iniValsOf (exportWalk em t [])))
          (readIniSection (iniTypesOf (exportWalk em t []))) dm st).1 (p, vn) =
          some d) ∧
        (findA dm (joinName p vn) ≠ none →
        storeLookup (importAllUnloadedValues
          (readIniSection (iniValsOf (exportWalk em t [])))
          (readIniSection (iniTypesOf (exportWalk em t []))) dm st).1 (p, vn) =
          storeLookup st (p, vn)))) ∧
    (∀ (vals types : List (Str × Str)) (m2 : OptionsMap) (st2 : Store) (loc : StoreKey),
      (∀ kv ∈ vals, findA types kv.1 = none ∨ loc ≠ splitName kv.1) →
      storeLookup (importAllUnloadedValues vals types m2 st2).1 loc =
        storeLookup st2 loc) := by
  constructor
  · intro p vn d hmem hem htag
    have hv : valueWF (p, vn, d) = true := List.all_eq_true.1 hwf (p, vn, d) hmem
    have h47 : 47 ∉ vn := by
      have hv2 := hv
      simp [valueWF] at hv2
      exact hv2.1
    have hsplit : splitName (joinName p vn) = (p, vn) := splitName_join p vn h47
    obtain ⟨e, hev, htyE, hsv⟩ :
        ∃ e : ExpEntry, exportValue em p vn d = some e ∧
          unescValue e.tag = e.tag ∧
          (saveValueToReg (parseIniValue e.tag (unescValue e.text))).1 = some d := by
      rcases htag with h4 | h1
      · refine ⟨⟨joinName p vn, intToText (toInt32 (bytesToDword d.data)), intTag⟩,
          ?_, by show unescValue intTag = intTag; decide, ?_⟩
        · unfold exportValue
          rw [if_pos hem, if_pos h4]
        · have hwfd : wfDwordData d.data = true := by
            have hv2 := hv
            simp [valueWF, h4, REG_DWORD] at hv2
            exact hv2.2
          have hrt := roundtrip_dword d.data hwfd
          rw [hrt]
          congr 1
          cases d with
          | mk ty da =>
            simp only at h4
            rw [h4]
      · refine ⟨⟨joinName p vn, escapeValue (decodeSz d.data), stringTag⟩,
          ?_, by show unescValue stringTag = stringTag; decide, ?_⟩
        · unfold exportValue
          rw [if_pos hem, if_neg (by rw [h1]; decide), if_pos h1]
        · have hwfs : wfSzData d.data = true := by
            have hv2 := hv
            simp [valueWF, h1, REG_SZ, REG_DWORD] at hv2
            exact hv2.2
          have hrt := roundtrip_sz d.data hwfs
          rw [hrt]
          congr 1
          cases d with
          | mk ty da =>
            simp only at h1
            rw [h1]
    have hname : e.name = joinName p vn := (exportValue_char em p vn d e hev).1
    have hmemE : e ∈ exportWalk em t [] := by
      rw [exportWalk_eq em t []]
      exact List.mem_filterMap.2 ⟨(p, vn, d), hmem, hev⟩
    have htypes : findA (readIniSection (iniTypesOf (exportWalk em t []))) e.name =
        some e.tag := by
      rw [readIni_types]
      rw [findA_entry_section (exportWalk em t []) (fun x => unescValue x.tag) e hmemE hnd]
      rw [htyE]
    have hshape : ∀ e2 ∈ exportWalk em t [], splitName e2.name = (p, vn) →
        e2.name = e.name := by
      intro e2 he2 hsp
      rw [exportWalk_eq em t []] at he2
      obtain ⟨x, hx, hxe⟩ := List.mem_filterMap.1 he2
      have hvx : valueWF x = true := List.all_eq_true.1 hwf x hx
      have h47x : 47 ∉ x.2.1 := by
        simp [valueWF] at hvx
        exact hvx.1
      have hnx : e2.name = joinName x.1 x.2.1 :=
        (exportValue_char em x.1 x.2.1 x.2.2 e2 hxe).1
      rw [hnx, splitName_joinName x.1 x.2.1 h47x, Prod.mk.injEq] at hsp
      rw [hnx, hname, hsp.1, hsp.2]
    obtain ⟨l1, l2, hE⟩ := List.append_of_mem hmemE
    constructor
    · intro hdm
      have hnotl2 : e.name ∉ l2.map ExpEntry.name := by
        have hnd2 : ((l1 ++ e :: l2).map ExpEntry.name).Nodup := by
          rw [← hE]; exact hnd
        rw [List.map_append, List.map_cons] at hnd2
        exact (List.nodup_cons.1 (List.Nodup.of_append_right hnd2)).1
      have hvals : readIniSection (iniValsOf (exportWalk em t [])) =
          l1.map (fun x => (x.name, unescValue x.text)) ++
            (e.name, unescValue e.text) :: l2.map (fun x => (x.name, unescValue x.text)) := by
        rw [readIni_vals, hE]
        simp
      have hrest : ∀ kv ∈ l2.map (fun x : ExpEntry => (x.name, unescValue x.text)),
          splitName e.name ≠ splitName kv.1 ∨
            findA dm kv.1 ≠ none ∨
            findA (readIniSection (iniTypesOf (exportWalk em t []))) kv.1 = none := by
        intro kv hkv
        obtain ⟨e2, he2l2, rfl⟩ := List.mem_map.1 hkv
        by_cases hc : splitName e2.name = (p, vn)
        · exfalso
          have hmem2 : e2 ∈ exportWalk em t [] := by
            rw [hE]
            simp [he2l2]
          have heq := hshape e2 hmem2 hc
          apply hnotl2
          rw [← heq]
          exact List.mem_map_of_mem ExpEntry.name he2l2
        · left
          rw [hname, hsplit]
          exact fun hh => hc hh.symm
      have hfold := importFold_write
        (readIniSection (iniTypesOf (exportWalk em t []))) dm
        (l1.map (fun x => (x.name, unescValue x.text)))
        (l2.map (fun x => (x.name, unescValue x.text)))
        e.name (unescValue e.text) e.tag d
        (by rw [hname]; exact hdm) htypes hsv hrest st
      have hloc : (p, vn) = splitName e.name := by
        rw [hname, hsplit]
      unfold importAllUnloadedValues
      rw [hvals, hloc]
      exact hfold
    · intro hdm
      unfold importAllUnloadedValues
      apply importFold_frame
      intro kv hkv
      rw [readIni_vals] at hkv
      obtain ⟨e2, he2, rfl⟩ := List.mem_map.1 hkv
      by_cases hc : splitName e2.name = (p, vn)
      · right; left
        have heq := hshape e2 he2 hc
        rw [heq, hname]
        exact hdm
      · left
        exact fun hh => hc hh.symm
  · intro vals types m2 st2 loc h
    unfold importAllUnloadedValues
    apply importFold_frame
    intro kv hkv
    rcases h kv hkv with hty | hloc
    · right; right; exact hty
    · left; exact hloc

/-- C2 witness: one unmanaged word value round-trips through the
exported file into an empty store. -/
theorem export_import_roundtrip_witness :
    treeWF (RegTree.node [([87], (⟨4, [100, 0, 0, 0]⟩ : RegData))] Subkeys.nil) = true ∧
    (((exportWalk [] (RegTree.node [([87], ⟨4, [100, 0, 0, 0]⟩)] Subkeys.nil) []).map
      ExpEntry.name).Nodup) ∧
    storeLookup (importAllUnloadedValues
      (readIniSection (iniValsOf
        (exportWalk [] (RegTree.node [([87], ⟨4, [100, 0, 0, 0]⟩)] Subkeys.nil) [])))
      (readIniSection (iniTypesOf
        (exportWalk [] (RegTree.node [([87], ⟨4, [100, 0, 0, 0]⟩)] Subkeys.nil) [])))
      [] []).1 ([], [87]) = some ⟨4, [100, 0, 0, 0]⟩ :=
  ⟨by decide, by decide,
    ((export_import_roundtrip (RegTree.node [([87], ⟨4, [100, 0, 0, 0]⟩)] Subkeys.nil)
      [] [] [] (by decide) (by decide)).1 [] [87] ⟨4, [100, 0, 0, 0]⟩
      (by decide) (by decide) (Or.inl (by decide))).1 (by decide)⟩

theorem initOption_true_none (t0 : OptionsMap) (io : IOState) (nm : Str)
    (dv : VariantValue) (hn0 : ¬(dv.tag = VT_NULL)) (hrd : regRead io nm = none) :
    initOption ⟨t0, io, true⟩ nm dv = (OptRet.ok, ⟨updateA t0 nm dv, io, true⟩) := by
  unfold initOption
  rw [if_neg hn0,
    if_neg (show ¬((⟨t0, io, true⟩ : MgrState).serializing = false) by
      show ¬(true = false); decide),
    if_pos (show (addOption (⟨t0, io, true⟩ : MgrState).table nm dv).1 = OptRet.ok from rfl),
    hrd]
  rfl

theorem initOption_true_some (t0 : OptionsMap) (io : IOState) (nm : Str)
    (dv : VariantValue) (rd : RegData) (hn0 : ¬(dv.tag = VT_NULL))
    (hrd : regRead io nm = some rd) :
    initOption ⟨t0, io, true⟩ nm dv =
      ((loadValueFromBuf (updateA t0 nm dv) nm rd.dwType rd.data dv).1,
        ⟨(loadValueFromBuf (updateA t0 nm dv) nm rd.dwType rd.data dv).2, io, true⟩) := by
  unfold initOption
  rw [if_neg hn0,
    if_neg (show ¬((⟨t0, io, true⟩ : MgrState).serializing = false) by
      show ¬(true = false); decide),
    if_pos (show (addOption (⟨t0, io, true⟩ : MgrState).table nm dv).1 = OptRet.ok from rfl),
    hrd]
  rfl

/-- C4 counterexample to the unconditional replacement clause: with the
store holding a `REG_SZ` datum under the name and an Int default of 100
while serializing, the stored value does not replace the default: the
table keeps Int 100 and `OPT_WRONG_TYPE` is returned. -/
theorem init_option_counterexample :
    (initOption ⟨[], ⟨0, [], [(([], [97]), ⟨1, [65, 0]⟩)]⟩, true⟩ [97]
        (VariantValue.intV 100)).1 = OptRet.wrongType ∧
      findA (initOption ⟨[], ⟨0, [], [(([], [97]), ⟨1, [65, 0]⟩)]⟩, true⟩ [97]
        (VariantValue.intV 100)).2.table [97] = some (VariantValue.intV 100) := by
  constructor
  · decide
  · decide

/-- C4 (amended): with an Int default while serializing, when the store
holds no value for the name, `InitOption` adds the option with the
default, returns Ok, and a table read after a flush returns the default;
when the store holds a value whose representation is a `REG_DWORD` word,
the stored value replaces the default in the table; when the store holds
any other representation, the default is kept and `OPT_WRONG_TYPE` is
returned. -/
theorem init_option_int_default (t0 : OptionsMap) (io : IOState) (nm : Str) (i : Int) :
    (regRead io nm = none →
      initOption ⟨t0, io, true⟩ nm (VariantValue.intV i) =
        (OptRet.ok, ⟨updateA t0 nm (VariantValue.intV i), io, true⟩) ∧
      optGet (flushOptions ⟨updateA t0 nm (VariantValue.intV i), io, true⟩).table nm =
        VariantValue.intV i) ∧
    (∀ da : List Nat, regRead io nm = some ⟨REG_DWORD, da⟩ →
      (initOption ⟨t0, io, true⟩ nm (VariantValue.intV i)).1 = OptRet.ok ∧
      findA (initOption ⟨t0, io, true⟩ nm (VariantValue.intV i)).2.table nm =
        some (VariantValue.intV (toInt32 (bytesToDword da)))) ∧
    (∀ (ty : Nat) (da : List Nat), regRead io nm = some ⟨ty, da⟩ → ty ≠ REG_DWORD →
      (initOption ⟨t0, io, true⟩ nm (VariantValue.intV i)).1 = OptRet.wrongType ∧
      findA (initOption ⟨t0, io, true⟩ nm (VariantValue.intV i)).2.table nm =
        some (VariantValue.intV i)) := by
  have hset : ∀ w : Int,
      optSet (updateA t0 nm (VariantValue.intV i)) nm (VariantValue.intV w) =
        (OptRet.ok, updateA (updateA t0 nm (VariantValue.intV i)) nm
          (VariantValue.intV w)) := by
    intro w
    unfold optSet
    rw [findA_updateA_self t0 nm (VariantValue.intV i)]
    rfl
  have hn0 : ¬((VariantValue.intV i).tag = VT_NULL) := by
    show ¬((2 : Nat) = VT_NULL)
    decide
  refine ⟨?_, ?_, ?_⟩
  · intro hnone
    constructor
    · exact initOption_true_none t0 io nm (VariantValue.intV i) hn0 hnone
    · unfold flushOptions optGet
      simp only []
      rw [findA_updateA_self t0 nm (VariantValue.intV i)]
      rfl
  · intro da hsome
    have hred : initOption ⟨t0, io, true⟩ nm (VariantValue.intV i) =
        (OptRet.ok, ⟨updateA (updateA t0 nm (VariantValue.intV i)) nm
          (VariantValue.intV (toInt32 (bytesToDword da))), io, true⟩) := by
      rw [initOption_true_some t0 io nm (VariantValue.intV i) ⟨REG_DWORD, da⟩ hn0 hsome]
      unfold loadValueFromBuf
      have hc1 : ¬((⟨REG_DWORD, da⟩ : RegData).dwType = REG_SZ ∧
          (VariantValue.intV i).tag = VT_STRING) := by
        show ¬(REG_DWORD = REG_SZ ∧ (2 : Nat) = VT_STRING)
        decide
      have hc2 : (⟨REG_DWORD, da⟩ : RegData).dwType = REG_DWORD := rfl
      have hc3 : (VariantValue.intV i).tag = VT_INT := rfl
      rw [if_neg hc1, if_pos hc2, if_pos hc3]
      rw [hset (toInt32 (bytesToDword da))]
    rw [hred]
    exact ⟨rfl, findA_updateA_self _ nm _⟩
  · intro ty da hsome hty
    have hred : initOption ⟨t0, io, true⟩ nm (VariantValue.intV i) =
        (OptRet.wrongType, ⟨updateA t0 nm (VariantValue.intV i), io, true⟩) := by
      rw [initOption_true_some t0 io nm (VariantValue.intV i) ⟨ty, da⟩ hn0 hsome]
      unfold loadValueFromBuf
      have hc1 : ¬((⟨ty, da⟩ : RegData).dwType = REG_SZ ∧
          (VariantValue.intV i).tag = VT_STRING) :=
        fun hc => absurd hc.2 (by show ¬((2 : Nat) = VT_STRING); decide)
      have hc2 : ¬((⟨ty, da⟩ : RegData).dwType = REG_DWORD) := hty
      rw [if_neg hc1, if_neg hc2]
    rw [hred]
    exact ⟨rfl, findA_updateA_self _ nm _⟩

/-- C4 witness for the amended claim: an empty store and the default
Int 100 give Ok and a default read-back after the flush. -/
theorem init_option_int_default_witness :
    regRead (⟨0, [], []⟩ : IOState) [97] = none ∧
    initOption ⟨[], ⟨0, [], []⟩, true⟩ [97] (VariantValue.intV 100) =
      (OptRet.ok, ⟨updateA [] [97] (VariantValue.intV 100), ⟨0, [], []⟩, true⟩) :=
  ⟨by decide,
    ((init_option_int_default [] ⟨0, [], []⟩ [97] 100).1 (by decide)).1⟩

/-- C10: for a name splitting to an empty value-name component (a key
path), `RemoveOption` erases from the table exactly the entries whose
name begins with the key path followed by `/`, leaves every other entry
unchanged, requests deletion of the whole store subtree (after the flush
barrier), and returns Ok; for a name with a non-empty value-name
component only that single option is removed from the table and only
that single store value deleted. -/
theorem remove_option_frame (s : MgrState) (nm : Str) :
    (∀ p : Str, splitName nm = (p, []) →
      (removeOption s nm).1 = OptRet.ok ∧
      (∀ k : Str, findA (removeOption s nm).2.table k =
        (if (p ++ [47]).isPrefixOf k then none else findA s.table k)) ∧
      (removeOption s nm).2.io.store = storeDeleteTree (drainQueue s.io).store p) ∧
    (∀ p vn : Str, splitName nm = (p, vn) → vn ≠ [] →
      findA (removeOption s nm).2.table nm = none ∧
      (∀ k : Str, k ≠ nm → findA (removeOption s nm).2.table k = findA s.table k) ∧
      (removeOption s nm).2.io.store =
        storeDeleteValue (drainQueue s.io).store p vn) := by
  constructor
  · intro p hsp
    have hcond : ¬((splitName nm).2 ≠ []) := by
      rw [hsp]
      simp
    refine ⟨?_, ?_, ?_⟩
    · unfold removeOption
      rw [if_neg hcond]
    · intro k
      unfold removeOption
      rw [if_neg hcond]
      show findA (s.table.filter (fun e => !(eraseCond (splitName nm).1 e.1))) k = _
      rw [hsp]
      exact findA_filter_eraseCond s.table p k
    · unfold removeOption
      rw [if_neg hcond]
      show (regRemove nm s.io).store = storeDeleteTree (drainQueue s.io).store p
      unfold regRemove
      rw [if_pos (by rw [hsp])]
      rw [hsp]
  · intro p vn hsp hvn
    have hcond : (splitName nm).2 ≠ [] := by
      rw [hsp]
      simpa using hvn
    have hio : (removeOption s nm).2.io.store =
        storeDeleteValue (drainQueue s.io).store p vn := by
      unfold removeOption
      rw [if_pos hcond]
      show (regRemove nm s.io).store = storeDeleteValue (drainQueue s.io).store p vn
      unfold regRemove
      rw [if_neg (by rw [hsp]; simpa using hvn)]
      rw [hsp]
    have htab : (removeOption s nm).2.table = (baseRemoveOption s.table nm).2 := by
      unfold removeOption
      rw [if_pos hcond]
    refine ⟨?_, ?_, hio⟩
    · rw [htab]
      unfold baseRemoveOption
      cases hf : findA s.table nm with
      | none => exact hf
      | some v => exact findA_eraseKey_self s.table nm
    · intro k hk
      rw [htab]
      unfold baseRemoveOption
      cases hf : findA s.table nm with
      | none => rfl
      | some v => exact findA_eraseKey_ne s.table nm k hk

/-- C10 witness: removing the key-path name wipes exactly the entries
under it, returning Ok. -/
theorem remove_option_frame_witness :
    splitName [97, 47] = ([97], []) ∧
    (removeOption ⟨[([97, 47, 98], VariantValue.intV 1), ([99], VariantValue.intV 2)],
      ⟨0, [], []⟩, true⟩ [97, 47]).1 = OptRet.ok :=
  ⟨by decide,
    ((remove_option_frame ⟨[([97, 47, 98], VariantValue.intV 1), ([99], VariantValue.intV 2)],
      ⟨0, [], []⟩, true⟩ [97, 47]).1 [97] (by decide)).1⟩

/-- C1 witness: with a write to the very name still in the queue,
removing then reading observes nothing. -/
theorem remove_flushes_before_delete_witness :
    (([97], VariantValue.intV 5) ∈
        (⟨1, [([97], VariantValue.intV 5)], []⟩ : IOState).queue) ∧
      regRead (regRemove [97] ⟨1, [([97], VariantValue.intV 5)], []⟩) [97] = none :=
  ⟨by decide,
    (remove_flushes_before_delete ⟨1, [([97], VariantValue.intV 5)], []⟩ [97]
      (VariantValue.intV 5) (by decide)).2.2⟩

/-- C3: `WriteAsync` increments `m_dwQueueCount` before attempting the
post; a failed post drops the write and restores the state with no error
surfaced (the whole call is a no-op); a successful post appends exactly
one message; the worker decrements exactly when it applies the head
message; consequently, from the initial state, the count always equals
the number of in-flight writes, so it is zero exactly when no write is
in flight. -/
theorem pending_write_count_flush_barrier (st : Store) (ops : List QOp) :
    (∀ (s : IOState) (nm : Str) (v : VariantValue), writeAsync false nm v s = s) ∧
    (∀ (s : IOState) (nm : Str) (v : VariantValue),
      (writeAsync true nm v s).queueCount = s.queueCount + 1 ∧
      (writeAsync true nm v s).queue = s.queue ++ [(nm, v)] ∧
      (writeAsync true nm v s).store = s.store) ∧
    (∀ (s : IOState) (nm : Str) (v : VariantValue) (rest : List PendingWrite),
      s.queue = (nm, v) :: rest →
      workerStep s = ⟨s.queueCount - 1, rest, applyWrite s.store nm v⟩) ∧
    (runQ (emptyQueueState st) ops).queueCount = (runQ (emptyQueueState st) ops).queue.length ∧
    ((runQ (emptyQueueState st) ops).queueCount = 0 ↔
      (runQ (emptyQueueState st) ops).queue = []) := by
  refine ⟨?_, ?_, ?_, runQ_count st ops, ?_⟩
  · intro s nm v
    simp [writeAsync]
  · intro s nm v
    exact ⟨rfl, rfl, rfl⟩
  · intro s nm v rest hq
    simp [workerStep, hq]
  · rw [runQ_count st ops]
    simp

/-- C3 witness: a failed post leaves the state unchanged, applied at a
concrete state. -/
theorem pending_write_count_flush_barrier_witness :
    writeAsync false [98] (VariantValue.boolV true) (⟨2, [([97], VariantValue.intV 1),
      ([99], VariantValue.intV 2)], []⟩ : IOState) =
      ⟨2, [([97], VariantValue.intV 1), ([99], VariantValue.intV 2)], []⟩ :=
  (pending_write_count_flush_barrier [] []).1
    ⟨2, [([97], VariantValue.intV 1), ([99], VariantValue.intV 2)], []⟩ [98]
    (VariantValue.boolV true)

/-- C5: the string branch of `SaveValueToReg` writes the string's units
plus one trailing terminator; a zero-length string writes the single
terminator unit; in particular the written data is never empty. -/
theorem string_encoding_never_empty (u : Str) :
    (saveValueToReg (VariantValue.strV u)).1 = some ⟨REG_SZ, saveStringData u⟩ ∧
    saveStringData u = u ++ [0] ∧
    (u = [] → saveStringData u = [0]) ∧
    0 < (saveStringData u).length := by
  have huniform : saveStringData u = u ++ [0] := saveStringData_eq u
  refine ⟨rfl, huniform, ?_, ?_⟩
  · intro h
    simp [saveStringData, h]
  · rw [huniform]
    simp

/-- C5 witness: the empty string encodes to the single terminator. -/
theorem string_encoding_never_empty_witness :
    ([] : Str) = [] ∧ saveStringData [] = [0] :=
  ⟨rfl, (string_encoding_never_empty []).2.2.1 rfl⟩

/-- C6: `LoadValueFromBuf` branches on the caller's expected type, not
solely on the stored tag: a `REG_DWORD` word is read as Int when an Int
is expected and as Bool when a Bool is expected, a `REG_SZ` datum is
accepted only when a String is expected, and every other combination
returns `OPT_WRONG_TYPE` and leaves the option table unchanged. -/
theorem load_branches_on_expected_type (t : OptionsMap) (nm : Str) (data : List Nat) :
    (∀ s : Str, loadValueFromBuf t nm REG_SZ data (VariantValue.strV s) =
      optSet t nm (VariantValue.strV (decodeSz data))) ∧
    (∀ i : Int, loadValueFromBuf t nm REG_DWORD data (VariantValue.intV i) =
      optSet t nm (VariantValue.intV (toInt32 (bytesToDword data)))) ∧
    (∀ b : Bool, loadValueFromBuf t nm REG_DWORD data (VariantValue.boolV b) =
      optSet t nm (VariantValue.boolV (decide (0 < bytesToDword data)))) ∧
    (∀ (ty : Nat) (expected : VariantValue),
      ¬(ty = REG_SZ ∧ expected.tag = VT_STRING) →
      ¬(ty = REG_DWORD ∧ (expected.tag = VT_INT ∨ expected.tag = VT_BOOL)) →
      loadValueFromBuf t nm ty data expected = (OptRet.wrongType, t)) := by
  refine ⟨?_, ?_, ?_, ?_⟩
  · intro s
    simp [loadValueFromBuf, VariantValue.tag, VT_STRING]
  · intro i
    simp [loadValueFromBuf, VariantValue.tag, VT_STRING, VT_INT, REG_SZ, REG_DWORD]
  · intro b
    simp [loadValueFromBuf, VariantValue.tag, VT_STRING, VT_INT, VT_BOOL, REG_SZ, REG_DWORD]
  · intro ty expected h1 h2
    unfold loadValueFromBuf
    rw [if_neg h1]
    by_cases hty : ty = REG_DWORD
    · rw [if_pos hty]
      rw [if_neg (fun hi => h2 ⟨hty, Or.inl hi⟩)]
      rw [if_neg (fun hb => h2 ⟨hty, Or.inr hb⟩)]
    · rw [if_neg hty]

/-- C6 witness: a word stored under `REG_SZ` with an Int expected is
rejected with `OPT_WRONG_TYPE` and an untouched table. -/
theorem load_branches_on_expected_type_witness :
    ¬(REG_SZ = REG_SZ ∧ (VariantValue.intV 7).tag = VT_STRING) ∧
    ¬(REG_SZ = REG_DWORD ∧
      ((VariantValue.intV 7).tag = VT_INT ∨ (VariantValue.intV 7).tag = VT_BOOL)) ∧
    loadValueFromBuf [([97], VariantValue.intV 3)] [97] REG_SZ [65, 0]
      (VariantValue.intV 7) = (OptRet.wrongType, [([97], VariantValue.intV 3)]) :=
  ⟨by decide, by decide,
    (load_branches_on_expected_type [([97], VariantValue.intV 3)] [97] [65, 0]).2.2.2
      REG_SZ (VariantValue.intV 7) (by decide) (by decide)⟩

/-- C8: the constructor stores the normalized root: the configured path
itself when it already begins with the `Software` namespace prefix, and
the path with the `Software\` component prepended exactly once
otherwise; the normalization is performed once, at construction time. -/
theorem root_normalized_once (path : Str) :
    (mkRegOptionsMgr path).registryRoot = setRegRootKey path ∧
    (softwareStr.isPrefixOf path = true → setRegRootKey path = path) ∧
    (softwareStr.isPrefixOf path = false → setRegRootKey path = softwareBS ++ path) := by
  refine ⟨rfl, ?_, ?_⟩
  · intro h
    have hz := (strFind_zero_iff path softwareStr).2 h
    unfold setRegRootKey
    rw [hz]
  · intro h
    unfold setRegRootKey
    cases hf : strFind path softwareStr with
    | none => rfl
    | some i =>
      cases i with
      | zero =>
        exfalso
        have := (strFind_zero_iff path softwareStr).1 hf
        rw [h] at this
        exact Bool.noConfusion this
      | succ j => rfl

/-- C8 witness: a root not starting with the prefix gets it prepended. -/
theorem root_normalized_once_witness :
    softwareStr.isPrefixOf [87, 105] = false ∧
    setRegRootKey [87, 105] = softwareBS ++ [87, 105] :=
  ⟨by decide, (root_normalized_once [87, 105]).2.2 (by decide)⟩

/-- C9: in every reachable cache state the cached handles hold at most
one entry per key path and `m_bCloseHandle` stays false; `OpenKey` on a
cached path returns the cached handle and changes nothing (no underlying
open/create call); `OpenKey` on an uncached path performs one underlying
call and caches the fresh handle; and as long as no explicit
`CloseKeys` request occurs, cached entries survive every further open
and every per-call `CloseKey` (so ordinary reads and writes never evict
them). -/
theorem key_handle_cache_one_handle (rk : List Str) (ops1 ops2 : List CacheOp) :
    ((runCache (initCache rk) ops1).hKeys.map Prod.fst).Nodup ∧
    (runCache (initCache rk) ops1).closeHandleFlag = false ∧
    (∀ (p : Str) (h : Nat) (b : Bool),
      findA (runCache (initCache rk) ops1).hKeys p = some h →
      cacheOpenKey (runCache (initCache rk) ops1) p b =
        (some h, runCache (initCache rk) ops1)) ∧
    (∀ p : Str, findA (runCache (initCache rk) ops1).hKeys p = none →
      (cacheOpenKey (runCache (initCache rk) ops1) p true).1 =
        some (runCache (initCache rk) ops1).nextH ∧
      findA (cacheOpenKey (runCache (initCache rk) ops1) p true).2.hKeys p =
        some (runCache (initCache rk) ops1).nextH ∧
      (cacheOpenKey (runCache (initCache rk) ops1) p true).2.openCalls =
        (runCache (initCache rk) ops1).openCalls + 1) ∧
    ((∀ o ∈ ops2, o ≠ CacheOp.closeAll) → ∀ (p : Str) (h : Nat),
      findA (runCache (initCache rk) ops1).hKeys p = some h →
      findA (runCache (runCache (initCache rk) ops1) ops2).hKeys p = some h) := by
  obtain ⟨hnd, hfl⟩ := runCache_invariant rk ops1
  refine ⟨hnd, hfl, ?_, ?_, ?_⟩
  · intro p h b hent
    unfold cacheOpenKey
    rw [hent]
  · intro p hnone
    unfold cacheOpenKey
    rw [hnone]
    refine ⟨rfl, ?_, rfl⟩
    simp [findA_updateA_self]
  · intro hno p h hent
    exact runCache_preserves_entry ops2 _ hfl hno p h hent

/-- C9 witness: opening, reading-closing and re-opening the same path
keeps the one cached handle. -/
theorem key_handle_cache_one_handle_witness :
    (∀ o ∈ [CacheOp.closeK [97], CacheOp.openK [97] true], o ≠ CacheOp.closeAll) ∧
    findA (runCache (initCache []) [CacheOp.openK [97] true]).hKeys [97] = some 1 ∧
    findA (runCache (runCache (initCache []) [CacheOp.openK [97] true])
      [CacheOp.closeK [97], CacheOp.openK [97] true]).hKeys [97] = some 1 :=
  ⟨by decide, by decide,
    (key_handle_cache_one_handle [] [CacheOp.openK [97] true]
      [CacheOp.closeK [97], CacheOp.openK [97] true]).2.2.2.2 (by decide) [97] 1 (by decide)⟩

end RegOpts

